import Mathlib

/-!
# IECoreAlembic.AlembicInput

A shallow embedding of `contrib/IECoreAlembic/src/IECoreAlembic/AlembicInput.cpp`:
the time-sample resolution (`numSamples`, `sampleTime`, `sampleInterval`), the lazily
cached bound (`bound`), the local transform (`transform`) and child navigation.

Conventions of the embedding.

* A finite C++ `double` is the rational number it denotes (`ℚ`), a zero being the
  positive zero; a `double` literal of the source stands for the binary64 number it
  denotes. The subtractions and the division of `sampleInterval` are the binary64
  operations: the exact result rounded to the nearest binary64 number, ties to even,
  subnormals included, overflowing to an infinity (`roundBinary64`, `Dbl`). Comparisons
  of doubles are exact. The box arithmetic of the Imath library is kept exact.
* `size_t` values are natural numbers; the `int` member `numSamples` is an `Int`, and the
  two conversions around it are written out (`toInt`, `toSizeT`).
* The member functions are `const` but write the `mutable` cache behind `m_data`; they
  are embedded as functions returning the result together with the updated members.
* The Alembic and Imath libraries are outside the sources. The archive is a finite tree
  of object records carrying what the library calls of the source read from it.
-/

namespace IECoreAlembic

/-! ## Imath value types -/

/-- The type `Imath::V3d`. -/
structure V3d where
  x : ℚ
  y : ℚ
  z : ℚ
deriving DecidableEq

/-- The type `Imath::Box3d`: the two corners of an axis-aligned box. -/
structure Box3d where
  min : V3d
  max : V3d
deriving DecidableEq

/-- The type `Imath::M44d`, entries `mIJ` standing for `m[I][J]`; a default-constructed
matrix is the identity. -/
structure M44d where
  m00 : ℚ := 1
  m01 : ℚ := 0
  m02 : ℚ := 0
  m03 : ℚ := 0
  m10 : ℚ := 0
  m11 : ℚ := 1
  m12 : ℚ := 0
  m13 : ℚ := 0
  m20 : ℚ := 0
  m21 : ℚ := 0
  m22 : ℚ := 1
  m23 : ℚ := 0
  m30 : ℚ := 0
  m31 : ℚ := 0
  m32 : ℚ := 0
  m33 : ℚ := 1
deriving DecidableEq

/-- The largest finite binary64 number, `std::numeric_limits<double>::max()`. -/
def dblMax : ℚ := (2 ^ 53 - 1) * 2 ^ 971

/-- Modelled from the spec: `Imath::Box3d::makeEmpty` (Imath library), the "min > max
sentinel" a default-constructed box holds: `min` at the largest double, `max` at the
smallest. -/
def Box3d.makeEmpty : Box3d :=
  ⟨⟨dblMax, dblMax, dblMax⟩, ⟨-dblMax, -dblMax, -dblMax⟩⟩

/-- Modelled from the spec: `Imath::Box3d::isEmpty` (Imath library): some component of
`max` lies below that of `min`. -/
def Box3d.isEmpty (b : Box3d) : Bool :=
  decide (b.max.x < b.min.x) || decide (b.max.y < b.min.y) || decide (b.max.z < b.min.z)

/-- Modelled from the spec: `Imath::Box3d::extendBy (const Box3d &)` (Imath library), the
axis-aligned envelope: each component of `min` is lowered and each component of `max`
raised to the other box's. -/
def Box3d.extendBy (b box : Box3d) : Box3d :=
  ⟨⟨if box.min.x < b.min.x then box.min.x else b.min.x,
    if box.min.y < b.min.y then box.min.y else b.min.y,
    if box.min.z < b.min.z then box.min.z else b.min.z⟩,
   ⟨if box.max.x > b.max.x then box.max.x else b.max.x,
    if box.max.y > b.max.y then box.max.y else b.max.y,
    if box.max.z > b.max.z then box.max.z else b.max.z⟩⟩

/-- Modelled from the spec: `Imath::Box3d::extendBy (const V3d &)` (Imath library). -/
def Box3d.extendByPoint (b : Box3d) (p : V3d) : Box3d :=
  ⟨⟨if p.x < b.min.x then p.x else b.min.x,
    if p.y < b.min.y then p.y else b.min.y,
    if p.z < b.min.z then p.z else b.min.z⟩,
   ⟨if p.x > b.max.x then p.x else b.max.x,
    if p.y > b.max.y then p.y else b.max.y,
    if p.z > b.max.z then p.z else b.max.z⟩⟩

/-- Modelled from the spec: the product `V3d * M44d` of the Imath library, the point
transformed by the matrix with the homogeneous divide. -/
def V3d.mulM44 (p : V3d) (m : M44d) : V3d :=
  let w := p.x * m.m03 + p.y * m.m13 + p.z * m.m23 + m.m33
  ⟨(p.x * m.m00 + p.y * m.m10 + p.z * m.m20 + m.m30) / w,
   (p.x * m.m01 + p.y * m.m11 + p.z * m.m21 + m.m31) / w,
   (p.x * m.m02 + p.y * m.m12 + p.z * m.m22 + m.m32) / w⟩

/-- One step of the inner loop of the affine case of `Imath::transform`: the products of
a matrix entry with the lower and upper coordinate are added to the running
lower and upper value, smaller one to the lower. -/
def affineStep (acc : ℚ × ℚ) (m lo hi : ℚ) : ℚ × ℚ :=
  let a := m * lo
  let b := m * hi
  if a < b then (acc.1 + a, acc.2 + b) else (acc.1 + b, acc.2 + a)

/-- The extent of the transformed box along one axis in the affine case of
`Imath::transform`: translation `t`, matrix column `(m0, m1, m2)`. -/
def affineAxis (t m0 m1 m2 : ℚ) (box : Box3d) : ℚ × ℚ :=
  affineStep (affineStep (affineStep (t, t) m0 box.min.x box.max.x)
    m1 box.min.y box.max.y) m2 box.min.z box.max.z

/-- Modelled from the spec: `Imath::transform (const Box3d &, const M44d &)`
(OpenEXR/ImathBoxAlgo.h, Imath library), the axis-aligned envelope of the box's image
under the matrix. An empty box is returned as it is; an affine matrix goes through the
per-axis sums; any other matrix transforms the eight corners. -/
def transformBox (box : Box3d) (m : M44d) : Box3d :=
  if box.isEmpty then box
  else if m.m03 = 0 ∧ m.m13 = 0 ∧ m.m23 = 0 ∧ m.m33 = 1 then
    let ax := affineAxis m.m30 m.m00 m.m10 m.m20 box
    let ay := affineAxis m.m31 m.m01 m.m11 m.m21 box
    let az := affineAxis m.m32 m.m02 m.m12 m.m22 box
    ⟨⟨ax.1, ay.1, az.1⟩, ⟨ax.2, ay.2, az.2⟩⟩
  else
    let lo := box.min
    let hi := box.max
    [ (⟨lo.x, lo.y, lo.z⟩ : V3d), ⟨lo.x, lo.y, hi.z⟩, ⟨lo.x, hi.y, lo.z⟩, ⟨lo.x, hi.y, hi.z⟩,
      ⟨hi.x, lo.y, lo.z⟩, ⟨hi.x, lo.y, hi.z⟩, ⟨hi.x, hi.y, lo.z⟩, ⟨hi.x, hi.y, hi.z⟩ ].foldl
      (fun acc p => acc.extendByPoint (p.mulM44 m)) Box3d.makeEmpty

/-! ## The archive backend -/

/-- A time-sampling table (`Alembic::AbcCoreAbstract::TimeSampling`): the time recorded
for each sample index. -/
structure TimeSampling where
  getSampleTime : Nat → ℚ

/-- The greatest index below `n` whose recorded time is at most `time`, if there is one. -/
def TimeSampling.lastAtMost (ts : TimeSampling) (time : ℚ) : Nat → Option Nat
  | 0 => none
  | k + 1 => if ts.getSampleTime k ≤ time then some k else ts.lastAtMost time k

/-- The smallest index below `n` whose recorded time is at least `time`, if there is one. -/
def TimeSampling.firstAtLeast (ts : TimeSampling) (time : ℚ) : Nat → Option Nat
  | 0 => none
  | k + 1 =>
    match ts.firstAtLeast time k with
    | some i => some i
    | none => if time ≤ ts.getSampleTime k then some k else none

/-- Modelled from the spec: `TimeSampling::getFloorIndex` (Alembic library): index and time
of the "greatest table entry ≤ query time (clamped to valid sample range)" among the
first `numSamples` entries; a query before the first entry is clamped to entry 0. -/
def TimeSampling.getFloorIndex (ts : TimeSampling) (time : ℚ) (numSamples : Nat) : Nat × ℚ :=
  let i := (ts.lastAtMost time numSamples).getD 0
  (i, ts.getSampleTime i)

/-- Modelled from the spec: `TimeSampling::getCeilIndex` (Alembic library): index and time
of the "smallest entry ≥ query time" among the first `numSamples` entries; a query after
the last entry is clamped to the last entry. -/
def TimeSampling.getCeilIndex (ts : TimeSampling) (time : ℚ) (numSamples : Nat) : Nat × ℚ :=
  let i := (ts.firstAtLeast time numSamples).getD (numSamples - 1)
  (i, ts.getSampleTime i)

/-- What the library calls of the source read from one object of the archive:
`xformMatches` is `IXform::matches( getMetaData() )`; the `childBnds` fields belong to
the `.childBnds` property of the object, the `xform` fields to its `IXform` schema and
the sample `IXformSchema::get` returns, the `geom` fields to its `IGeomBaseObject`
schema and the value `getValue()` returns. -/
structure ObjectProps where
  name : String
  metaData : List (String × String)
  xformMatches : Bool
  childBndsNumSamples : Nat
  childBndsTimeSampling : TimeSampling
  xformNumSamples : Nat
  xformTimeSampling : TimeSampling
  xformMatrix : M44d
  xformChildBounds : Box3d
  geomNumSamples : Nat
  geomTimeSampling : TimeSampling
  geomSelfBounds : Box3d

/-- An object of the archive with the objects below it, in file order. -/
inductive ObjectReader where
  | mk (props : ObjectProps) (children : List ObjectReader)

/-- The record of an object. -/
def ObjectReader.props : ObjectReader → ObjectProps
  | .mk p _ => p

/-- The objects directly below an object. -/
def ObjectReader.children : ObjectReader → List ObjectReader
  | .mk _ cs => cs

/-- An `Alembic::Abc::IObject`: an object of the archive, and whether `getParent()`
gives a valid object (it does not for the top object only). -/
structure IObject where
  hasParent : Bool
  reader : ObjectReader

/-- An opened `Alembic::Abc::IArchive`: its top object and the value of its archive
bounds property (`GetIArchiveBounds( archive ).getValue()`). -/
structure IArchive where
  top : ObjectReader
  archiveBounds : Box3d

/-- The call `IArchive::getTop`. -/
def IArchive.getTop (a : IArchive) : IObject := ⟨false, a.top⟩

/-- The call `IObject::getNumChildren`. -/
def IObject.getNumChildren (o : IObject) : Nat := o.reader.children.length

/-- Exceptions thrown through the interface: `InvalidArgumentException` with its message
by the source itself, `backendOutOfRange` by the archive backend. -/
inductive Exception where
  | invalidArgument (msg : String)
  | backendOutOfRange
deriving DecidableEq

/-- Modelled from the spec: `IObject::getChild( size_t )` (Alembic library): "Fails with
OutOfRange if index invalid (delegated to backend)". -/
def IObject.getChild (o : IObject) (index : Nat) : Except Exception IObject :=
  match o.reader.children[index]? with
  | some r => .ok ⟨true, r⟩
  | none => .error .backendOutOfRange

/-- The call `IObject::getChild( const std::string & )`: the first child of that name, an
invalid object (`none`) when there is none. -/
def IObject.getChildByName (o : IObject) (name : String) : Option IObject :=
  (o.reader.children.find? (fun r => r.props.name == name)).map (fun r => ⟨true, r⟩)

/-! ## The handle -/

/-- The struct `AlembicInput::DataMembers`. -/
structure DataMembers where
  archive : IArchive
  object : IObject
  boundValid : Bool
  bound : Box3d
  numSamples : Int
  timeSampling : Option TimeSampling

/-- An `AlembicInput` is its `m_data`. -/
abbrev AlembicInput := DataMembers

/-- The constructor `DataMembers()` followed by the assignment of `archive` and `object`:
`boundValid( false )`, `numSamples( -1 )`, a default (empty) box and a null
`timeSampling`. -/
def DataMembers.init (archive : IArchive) (object : IObject) : DataMembers :=
  ⟨archive, object, false, Box3d.makeEmpty, -1, none⟩

/-- The constructor `AlembicInput( fileName )`, on the archive the file opens as. -/
def AlembicInput.ofArchive (archive : IArchive) : AlembicInput :=
  DataMembers.init archive archive.getTop

/-! ## Binary64 arithmetic -/

/-- Rounding of a rational to the nearest integer, a tie going to the even neighbour. -/
def roundHalfEven (q : ℚ) : ℤ :=
  if q - ⌊q⌋ < 1 / 2 then ⌊q⌋
  else if 1 / 2 < q - ⌊q⌋ then ⌊q⌋ + 1
  else if ⌊q⌋ % 2 = 0 then ⌊q⌋ else ⌊q⌋ + 1

/-- The exponent of the unit in the last place of binary64 at the magnitude `a`: 52 binary
places below the leading bit, and `-1074` throughout the subnormal range. -/
def ulpExponent (a : ℚ) : ℤ := max (Int.log 2 a - 52) (-1074)

/-- Rounding of a non-negative rational to binary64 with unbounded exponent above: the
nearest multiple of the unit in the last place, ties to even. -/
def roundMagnitude (a : ℚ) : ℚ :=
  (roundHalfEven (a / 2 ^ ulpExponent a) : ℚ) * 2 ^ ulpExponent a

/-- Rounding of a rational to binary64, round to nearest, ties to even, applied to the
magnitude under the sign; the exponent is not bounded above (overflow is decided by
`Dbl.ofRounded`). -/
def roundBinary64 (x : ℚ) : ℚ :=
  if x < 0 then -roundMagnitude (-x) else roundMagnitude x

/-- The result of a binary64 operation: a finite number, an infinity, or not a number. -/
inductive Dbl where
  | fin (value : ℚ)
  | posInf
  | negInf
  | nan
deriving DecidableEq

/-- The literal `0.0`. -/
instance : OfNat Dbl 0 := ⟨Dbl.fin 0⟩

/-- The result of an operation from its rounded value: beyond the largest finite double
the operation overflows to the infinity of that sign. -/
def Dbl.ofRounded (r : ℚ) : Dbl :=
  if dblMax < r then .posInf else if r < -dblMax then .negInf else .fin r

/-- The binary64 subtraction `x - y` of two finite doubles. -/
def doubleSub (x y : ℚ) : Dbl := Dbl.ofRounded (roundBinary64 (x - y))

/-- The function `fabs` on a double. -/
def Dbl.fabs : Dbl → Dbl
  | .fin a => .fin |a|
  | .posInf => .posInf
  | .negInf => .posInf
  | .nan => .nan

/-- The comparison `<` of doubles; it is false when an operand is not a number. -/
def Dbl.lt : Dbl → Dbl → Bool
  | .fin a, .fin b => decide (a < b)
  | .fin _, .posInf => true
  | .negInf, .fin _ => true
  | .negInf, .posInf => true
  | _, _ => false

/-- The binary64 division; a zero divisor is the positive zero (the difference of two
equal finite doubles). -/
def Dbl.div : Dbl → Dbl → Dbl
  | .nan, _ => .nan
  | _, .nan => .nan
  | .fin a, .fin b =>
    if b = 0 then (if a = 0 then .nan else if 0 < a then .posInf else .negInf)
    else Dbl.ofRounded (roundBinary64 (a / b))
  | .fin _, .posInf => .fin 0
  | .fin _, .negInf => .fin 0
  | .posInf, .fin b => if 0 ≤ b then .posInf else .negInf
  | .negInf, .fin b => if 0 ≤ b then .negInf else .posInf
  | .posInf, .posInf => .nan
  | .posInf, .negInf => .nan
  | .negInf, .posInf => .nan
  | .negInf, .negInf => .nan

/-! ## Sample counts and sample times -/

/-- The conversion of a `size_t` to `int` (the assignment to `m_data->numSamples`):
reduction modulo `2 ^ 32` into the signed range. -/
def toInt (n : Nat) : Int :=
  if n % 2 ^ 32 < 2 ^ 31 then ((n % 2 ^ 32 : Nat) : Int) else ((n % 2 ^ 32 : Nat) : Int) - 2 ^ 32

/-- The conversion of an `int` to `size_t` (the `return m_data->numSamples`): reduction
modulo `2 ^ 64`. -/
def toSizeT (i : Int) : Nat := (i % 2 ^ 64).toNat

/-- The sample count the three branches of `numSamples` read from the backend: of the
`.childBnds` property at the top of the archive, of the `IXform` schema when the
metadata matches, of the `IGeomBaseObject` schema otherwise. -/
def IObject.schemaNumSamples (o : IObject) : Nat :=
  if !o.hasParent then o.reader.props.childBndsNumSamples
  else if o.reader.props.xformMatches then o.reader.props.xformNumSamples
  else o.reader.props.geomNumSamples

/-- The table the three branches of `ensureTimeSampling` read from the backend. -/
def IObject.schemaTimeSampling (o : IObject) : TimeSampling :=
  if !o.hasParent then o.reader.props.childBndsTimeSampling
  else if o.reader.props.xformMatches then o.reader.props.xformTimeSampling
  else o.reader.props.geomTimeSampling

/-- The function `AlembicInput::numSamples`. -/
def numSamples (h : AlembicInput) : Nat × AlembicInput :=
  if h.numSamples ≠ -1 then (toSizeT h.numSamples, h)
  else
    let n : Int :=
      if !h.object.hasParent then toInt h.object.reader.props.childBndsNumSamples
      else if h.object.reader.props.xformMatches then toInt h.object.reader.props.xformNumSamples
      else toInt h.object.reader.props.geomNumSamples
    (toSizeT n, { h with numSamples := n })

/-- The function `AlembicInput::ensureTimeSampling`. -/
def ensureTimeSampling (h : AlembicInput) : AlembicInput :=
  match h.timeSampling with
  | some _ => h
  | none =>
    if !h.object.hasParent then
      { h with timeSampling := some h.object.reader.props.childBndsTimeSampling }
    else if h.object.reader.props.xformMatches then
      { h with timeSampling := some h.object.reader.props.xformTimeSampling }
    else
      { h with timeSampling := some h.object.reader.props.geomTimeSampling }

/-- The dereference `*m_data->timeSampling`; the source dereferences only after
`ensureTimeSampling`, when the pointer is not null. -/
def DataMembers.derefTimeSampling (h : DataMembers) : TimeSampling :=
  match h.timeSampling with
  | some ts => ts
  | none => ⟨fun _ => 0⟩

/-- The function `AlembicInput::sampleTime`: the result or the exception thrown, and the
members afterwards. -/
def sampleTime (h : AlembicInput) (sampleIndex : Nat) : Except Exception ℚ × AlembicInput :=
  let r := numSamples h
  if sampleIndex ≥ r.1 then
    (.error (.invalidArgument "Sample index out of range"), r.2)
  else
    let h2 := ensureTimeSampling r.2
    (.ok (h2.derefTimeSampling.getSampleTime sampleIndex), h2)

/-- The literal `0.0001` of `sampleInterval`: the binary64 number it denotes,
`7378697629483821 / 2 ^ 66`, the double nearest to one ten-thousandth. -/
def snapTolerance : ℚ := 7378697629483821 / 2 ^ 66

/-- The double just below the double `0.0001`, `nextafter( 0.0001, 0 )`. -/
def snapTolerancePred : ℚ := 7378697629483820 / 2 ^ 66

/-- What `AlembicInput::sampleInterval` hands back: the two indices written through the
reference parameters and the returned weight. -/
structure SampleInterval where
  floorIndex : Nat
  ceilIndex : Nat
  weight : Dbl
deriving DecidableEq

/-- The function `AlembicInput::sampleInterval`. -/
def sampleInterval (h : AlembicInput) (time : ℚ) : SampleInterval × AlembicInput :=
  let h1 := ensureTimeSampling h
  let r := numSamples h1
  let f := h1.derefTimeSampling.getFloorIndex time r.1
  if (doubleSub time f.2).fabs.lt (.fin snapTolerance) then
    (⟨f.1, f.1, 0⟩, r.2)
  else
    let r2 := numSamples r.2
    let c := h1.derefTimeSampling.getCeilIndex time r2.1
    if f.1 = c.1 ∨ (doubleSub time c.2).fabs.lt (.fin snapTolerance) then
      (⟨c.1, c.1, 0⟩, r2.2)
    else
      (⟨f.1, c.1, (doubleSub time f.2).div (doubleSub c.2 f.2)⟩, r2.2)

/-- The three cases of `sampleInterval` as the source computes them, on a table and a
sample count. -/
def sampleIntervalOn (ts : TimeSampling) (numSamples : Nat) (time : ℚ) : SampleInterval :=
  let f := ts.getFloorIndex time numSamples
  let c := ts.getCeilIndex time numSamples
  if (doubleSub time f.2).fabs.lt (.fin snapTolerance) then ⟨f.1, f.1, 0⟩
  else if f.1 = c.1 ∨ (doubleSub time c.2).fabs.lt (.fin snapTolerance) then ⟨c.1, c.1, 0⟩
  else ⟨f.1, c.1, (doubleSub time f.2).div (doubleSub c.2 f.2)⟩

/-- Modelled from the spec: the three cases of the time-sample resolution in the spec's
words, on a table and a sample count, with the tolerance `1e-4` and the differences and
the quotient taken as the exact numbers: floor snap first, then the ceil snap (or a
single candidate), then the interpolated pair. -/
def sampleIntervalSpec (ts : TimeSampling) (numSamples : Nat) (t : ℚ) : SampleInterval :=
  let floor := ts.getFloorIndex t numSamples
  let ceil := ts.getCeilIndex t numSamples
  if |t - floor.2| < 1 / 10000 then ⟨floor.1, floor.1, 0⟩
  else if floor.1 = ceil.1 ∨ |t - ceil.2| < 1 / 10000 then ⟨ceil.1, ceil.1, 0⟩
  else ⟨floor.1, ceil.1, .fin ((t - floor.2) / (ceil.2 - floor.2))⟩

/-- Modelled from the spec: the three cases of the time-sample resolution in the spec's
words with the tolerance `1e-4`, the two differences and the quotient being the binary64
results: floor snap first, then the ceil snap (or a single candidate), then the
interpolated pair. -/
def sampleIntervalSpecBinary64 (ts : TimeSampling) (numSamples : Nat) (t : ℚ) :
    SampleInterval :=
  let floor := ts.getFloorIndex t numSamples
  let ceil := ts.getCeilIndex t numSamples
  if (doubleSub t floor.2).fabs.lt (.fin (1 / 10000)) then ⟨floor.1, floor.1, 0⟩
  else if floor.1 = ceil.1 ∨ (doubleSub t ceil.2).fabs.lt (.fin (1 / 10000)) then
    ⟨ceil.1, ceil.1, 0⟩
  else ⟨floor.1, ceil.1, (doubleSub t floor.2).div (doubleSub ceil.2 floor.2)⟩

/-- The table `sampleInterval` and `sampleTime` consult on a handle. -/
def tableOf (h : AlembicInput) : TimeSampling := (ensureTimeSampling h).derefTimeSampling

/-- Strictly increasing sample times over the first `n` entries of a table. -/
def StrictlyIncreasing (ts : TimeSampling) (n : Nat) : Prop :=
  ∀ i j, i < j → j < n → ts.getSampleTime i < ts.getSampleTime j

/-! ## Transform, children and bound -/

/-- The function `AlembicInput::transform`. -/
def transform (h : AlembicInput) : M44d :=
  if h.object.reader.props.xformMatches then h.object.reader.props.xformMatrix
  else ({} : M44d)

/-- The function `AlembicInput::numChildren`. -/
def numChildren (h : AlembicInput) : Nat := h.object.getNumChildren

/-- The function `AlembicInput::child( size_t )`: fresh members sharing the archive, on
the backend's child of that index. -/
def child (h : AlembicInput) (index : Nat) : Except Exception AlembicInput :=
  match h.object.getChild index with
  | .ok c => .ok (DataMembers.init h.archive c)
  | .error e => .error e

/-- The function `AlembicInput::child( const std::string & )`. -/
def childByName (h : AlembicInput) (name : String) : Except Exception AlembicInput :=
  match h.object.getChildByName name with
  | none => .error (.invalidArgument name)
  | some c => .ok (DataMembers.init h.archive c)

/-- The function `AlembicInput::childNames`. -/
def childNames (h : AlembicInput) : List String :=
  h.object.reader.children.map (fun r => r.props.name)

mutual
/-- The body of `AlembicInput::bound` below the cache test, on the object of a handle:
archive bounds at the top, the stored child bounds of a transform or, when those are
empty, that box extended by every child's bound, the self bounds otherwise. The
children are reached through fresh handles (`child( i )`), whose cache is not valid, so
their `bound()` is this computation again. -/
def computeBound (archive : IArchive) : Bool → ObjectReader → Box3d
  | hasParent, .mk p cs =>
    if !hasParent then archive.archiveBounds
    else if p.xformMatches then
      if p.xformChildBounds.isEmpty then extendByChildren archive p.xformChildBounds cs
      else p.xformChildBounds
    else p.geomSelfBounds
/-- The loop of `AlembicInput::bound` over the children: each child's bound, transformed
by the child's `transform()`, extends the box accumulated so far. -/
def extendByChildren (archive : IArchive) (acc : Box3d) : List ObjectReader → Box3d
  | [] => acc
  | c :: cs =>
    extendByChildren archive
      (acc.extendBy (transformBox (computeBound archive true c)
        (transform (DataMembers.init archive ⟨true, c⟩)))) cs
end

/-- The function `AlembicInput::bound`: the cached box when it is valid, else the box
computed from the backend, stored and marked valid. -/
def bound (h : AlembicInput) : Box3d × AlembicInput :=
  if h.boundValid then (h.bound, h)
  else
    let b := computeBound h.archive h.object.hasParent h.object.reader
    (b, { h with bound := b, boundValid := true })

/-- The handles `child( 0 )`, ..., `child( numChildren() - 1 )` of a handle. -/
def childHandles (h : AlembicInput) : List AlembicInput :=
  h.object.reader.children.map (fun r => DataMembers.init h.archive ⟨true, r⟩)

/-- Modelled from the spec: the "union (axis-aligned envelope)" of a list of boxes, the
empty box extended by each of them. -/
def unionOfBoxes (boxes : List Box3d) : Box3d :=
  boxes.foldl Box3d.extendBy Box3d.makeEmpty

/-- The cached bound of a handle agrees with the backend: when marked valid it is the box
`bound` computes from the backend. Fresh handles satisfy it and `bound` keeps it. -/
def BoundCacheOk (h : AlembicInput) : Prop :=
  h.boundValid = true → h.bound = computeBound h.archive h.object.hasParent h.object.reader

/-- The cached table of a handle agrees with the backend: when set it is the table of the
node's schema. Fresh handles satisfy it and `ensureTimeSampling` keeps it. -/
def TimeCacheOk (h : AlembicInput) : Prop :=
  ∀ ts, h.timeSampling = some ts → ts = h.object.schemaTimeSampling

/-! ## Scenario data -/

/-- The binary64 number the literal `0.04` denotes. -/
def dbl_0_04 : ℚ := 5764607523034235 / 2 ^ 57

/-- The binary64 number the literal `0.08` denotes. -/
def dbl_0_08 : ℚ := 5764607523034235 / 2 ^ 56

/-- The binary64 number the literal `0.0401` denotes. -/
def dbl_0_0401 : ℚ := 1444754760460455 / 2 ^ 55

/-- A table recording the listed times for the indices `0, 1, ...` (and `0` beyond). -/
def TimeSampling.ofList (times : List ℚ) : TimeSampling := ⟨fun i => times.getD i 0⟩

/-- An object record with no samples, no matching metadata and empty boxes. -/
def ObjectProps.blank (name : String) : ObjectProps :=
  { name := name, metaData := [], xformMatches := false,
    childBndsNumSamples := 0, childBndsTimeSampling := ⟨fun _ => 0⟩,
    xformNumSamples := 0, xformTimeSampling := ⟨fun _ => 0⟩,
    xformMatrix := {}, xformChildBounds := Box3d.makeEmpty,
    geomNumSamples := 0, geomTimeSampling := ⟨fun _ => 0⟩,
    geomSelfBounds := Box3d.makeEmpty }

/-- The three-sample table `{0 → 0.0, 1 → 0.04, 2 → 0.08}` in binary64. -/
def threeSampleTable : TimeSampling := TimeSampling.ofList [0, dbl_0_04, dbl_0_08]

/-- An archive whose top object carries three samples on the table
`{0 → 0.0, 1 → 0.04, 2 → 0.08}`. -/
def threeSampleArchive : IArchive :=
  { top := .mk { ObjectProps.blank "ABC" with
                 childBndsNumSamples := 3, childBndsTimeSampling := threeSampleTable } [],
    archiveBounds := Box3d.makeEmpty }

/-- The root handle of `threeSampleArchive`. -/
def threeSampleInput : AlembicInput := AlembicInput.ofArchive threeSampleArchive

/-- The box `[(0,0,0),(1,1,1)]`. -/
def unitBox : Box3d := ⟨⟨0, 0, 0⟩, ⟨1, 1, 1⟩⟩

/-- The matrix `translate(5,0,0)`: Imath keeps the translation in the last row. -/
def translate5 : M44d := { m30 := 5 }

/-- The GeometryBase object "B" of the scenario, self bounds `[(0,0,0),(1,1,1)]`. -/
def scenarioB : ObjectReader :=
  .mk { ObjectProps.blank "B" with geomSelfBounds := unitBox } []

/-- The Transform object "A" of the scenario: matrix `translate(5,0,0)`, no stored child
bounds (the sample holds the default empty box), one child "B". -/
def scenarioA : ObjectReader :=
  .mk { ObjectProps.blank "A" with
        xformMatches := true, xformMatrix := translate5,
        xformChildBounds := Box3d.makeEmpty } [scenarioB]

/-- The archive of the scenario: archive bounds `[(-1,-1,-1),(1,1,1)]`, one child "A"
under the top object. -/
def scenarioArchive : IArchive :=
  { top := .mk (ObjectProps.blank "ABC") [scenarioA],
    archiveBounds := ⟨⟨-1, -1, -1⟩, ⟨1, 1, 1⟩⟩ }

/-- The root handle of the scenario. -/
def scenarioRoot : AlembicInput := AlembicInput.ofArchive scenarioArchive

/-- A box that `isEmpty` reports empty without being the default empty box. -/
def invertedBox : Box3d := ⟨⟨0, 0, 0⟩, ⟨-1, -1, -1⟩⟩

/-- A GeometryBase object "G" with self bounds `[(1,1,1),(2,2,2)]` and no children. -/
def invertedG : ObjectReader :=
  .mk { ObjectProps.blank "G" with geomSelfBounds := ⟨⟨1, 1, 1⟩, ⟨2, 2, 2⟩⟩ } []

/-- A Transform object "T" that stores the child bounds `invertedBox`, with the identity
matrix and the one child "G". -/
def invertedT : ObjectReader :=
  .mk { ObjectProps.blank "T" with xformMatches := true, xformChildBounds := invertedBox }
    [invertedG]

/-- An archive with the Transform object "T" under its top object. -/
def invertedArchive : IArchive :=
  { top := .mk (ObjectProps.blank "ABC") [invertedT], archiveBounds := Box3d.makeEmpty }

/-- The handle on "T": `child( 0 )` of the root handle of `invertedArchive`. -/
def invertedInput : AlembicInput := DataMembers.init invertedArchive ⟨true, invertedT⟩

/-- The handle on "A": `child( "A" )` of the root handle of the scenario. -/
def scenarioInputA : AlembicInput := DataMembers.init scenarioArchive ⟨true, scenarioA⟩

/-! ## Operations and call depth -/

/-- The cached sample count of a handle agrees with the backend: when set (not `-1`) it is
the backend's count of the node's schema as the assignment to the `int` member converts
it. Fresh handles satisfy it and every operation keeps it. -/
def CountCacheOk (h : AlembicInput) : Prop :=
  h.numSamples ≠ -1 → h.numSamples = toInt h.object.schemaNumSamples

/-- The operations of a handle. -/
inductive Operation where
  | numSamples
  | sampleTime (sampleIndex : Nat)
  | sampleInterval (time : ℚ)
  | bound
  | transform
  | childAt (index : Nat)
  | childNamed (name : String)
  | childNames

/-- The members of a handle after an operation on it: `numSamples`, `sampleTime`,
`sampleInterval` and `bound` write the cache, while `transform`, both `child`
functions and `childNames` do not touch `m_data` (a child gets members of its own). -/
def Operation.run : Operation → AlembicInput → AlembicInput
  | .numSamples, h => (IECoreAlembic.numSamples h).2
  | .sampleTime sampleIndex, h => (IECoreAlembic.sampleTime h sampleIndex).2
  | .sampleInterval time, h => (IECoreAlembic.sampleInterval h time).2
  | .bound, h => (IECoreAlembic.bound h).2
  | .transform, h => h
  | .childAt _, h => h
  | .childNamed _, h => h
  | .childNames, h => h

/-- The members of a handle after a sequence of operations. -/
def runAll (ops : List Operation) (h : AlembicInput) : AlembicInput :=
  ops.foldl (fun k op => op.run k) h

mutual
/-- The depth of an object tree: 1 for an object without children. -/
def ObjectReader.depth : ObjectReader → Nat
  | .mk _ cs => depthOfChildren cs + 1
/-- The greatest depth among a list of object trees, 0 for the empty list. -/
def depthOfChildren : List ObjectReader → Nat
  | [] => 0
  | c :: cs => max c.depth (depthOfChildren cs)
end

mutual
/-- The computation `computeBound` with a limit on the nesting of `bound()` calls: a call
needs one level for itself and passes the remaining levels to the `bound()` calls on its
children; `none` when the limit does not suffice. -/
def computeBoundDepth (archive : IArchive) : Nat → Bool → ObjectReader → Option Box3d
  | 0, _, _ => none
  | levels + 1, hasParent, .mk p cs =>
    if !hasParent then some archive.archiveBounds
    else if p.xformMatches then
      if p.xformChildBounds.isEmpty then
        extendByChildrenDepth archive levels p.xformChildBounds cs
      else some p.xformChildBounds
    else some p.geomSelfBounds
/-- The loop over the children with the limit `levels` for each child's `bound()`. -/
def extendByChildrenDepth (archive : IArchive) : Nat → Box3d → List ObjectReader → Option Box3d
  | _, acc, [] => some acc
  | levels, acc, c :: cs =>
    match computeBoundDepth archive levels true c with
    | none => none
    | some b =>
      extendByChildrenDepth archive levels
        (acc.extendBy (transformBox b (transform (DataMembers.init archive ⟨true, c⟩)))) cs
end

/-- The function `AlembicInput::bound` with a limit on the nesting of `bound()` calls, the
call on the handle itself included. -/
def boundDepth (levels : Nat) (h : AlembicInput) : Option (Box3d × AlembicInput) :=
  if h.boundValid then some (h.bound, h)
  else
    match computeBoundDepth h.archive levels h.object.hasParent h.object.reader with
    | none => none
    | some b => some (b, { h with bound := b, boundValid := true })

/-- A Transform object without children whose sample stores no child bounds. -/
def childlessT : ObjectReader :=
  .mk { ObjectProps.blank "T" with xformMatches := true } []

/-- An archive whose top object has metadata matching the transform schema and a
transform sample with the matrix `translate(5,0,0)`. -/
def xformTopArchive : IArchive :=
  { top := .mk { ObjectProps.blank "ABC" with xformMatches := true, xformMatrix := translate5 } [],
    archiveBounds := unitBox }

/-- An archive whose top object carries `2 ^ 31` samples on its `.childBnds` property. -/
def manySamplesArchive : IArchive :=
  { top := .mk { ObjectProps.blank "ABC" with childBndsNumSamples := 2 ^ 31 } [],
    archiveBounds := unitBox }

/-- The members `k` continue the members `h` monotonically: same archive and object, a set
sample count kept, a set table kept, a valid bound kept valid and unchanged, and each
agreement of a cache with the backend carried over. -/
def CacheStep (h k : AlembicInput) : Prop :=
  k.archive = h.archive ∧ k.object = h.object ∧
  (h.numSamples ≠ -1 → k.numSamples = h.numSamples) ∧
  (∀ ts, h.timeSampling = some ts → k.timeSampling = some ts) ∧
  (h.boundValid = true → k.boundValid = true ∧ k.bound = h.bound) ∧
  (CountCacheOk h → CountCacheOk k) ∧ (TimeCacheOk h → TimeCacheOk k) ∧
  (BoundCacheOk h → BoundCacheOk k)

/-- The root handle of `manySamplesArchive`. -/
def manySamplesInput : AlembicInput := AlembicInput.ofArchive manySamplesArchive

/-- An archive whose top object carries `n` samples on the table `ts`. -/
def tableArchive (n : Nat) (ts : TimeSampling) : IArchive :=
  { top := .mk { ObjectProps.blank "ABC" with
                 childBndsNumSamples := n, childBndsTimeSampling := ts } [],
    archiveBounds := Box3d.makeEmpty }

/-- The root handle of `tableArchive n ts`. -/
def tableInput (n : Nat) (ts : TimeSampling) : AlembicInput :=
  AlembicInput.ofArchive (tableArchive n ts)

/-- The two-sample table `{0 → -100.0, 1 → 2^60}`. -/
def wideTable : TimeSampling := TimeSampling.ofList [-100, 2 ^ 60]

/-- The two-sample table `{0 → -DBL_MAX, 1 → DBL_MAX}`. -/
def extremeTable : TimeSampling := TimeSampling.ofList [-dblMax, dblMax]

/-- The two-sample table `{0 → -5404319552844595 / 2^119, 1 → 1.0}`; the first time is
a double of about `-8.13e-21`. -/
def nearSnapTable : TimeSampling := TimeSampling.ofList [-(5404319552844595 / 2 ^ 119), 1]

/-! ## Lemmas on binary64 rounding -/

theorem roundHalfEven_intCast (n : ℤ) : roundHalfEven (n : ℚ) = n := by
  unfold roundHalfEven
  rw [Int.floor_intCast, sub_self, if_pos (by norm_num)]

theorem floor_le_roundHalfEven (q : ℚ) : ⌊q⌋ ≤ roundHalfEven q := by
  unfold roundHalfEven
  split_ifs <;> omega

theorem roundHalfEven_le_floor_add_one (q : ℚ) : roundHalfEven q ≤ ⌊q⌋ + 1 := by
  unfold roundHalfEven
  split_ifs <;> omega

theorem roundHalfEven_mono {p q : ℚ} (h : p ≤ q) : roundHalfEven p ≤ roundHalfEven q := by
  have hfl : ⌊p⌋ ≤ ⌊q⌋ := Int.floor_mono h
  rcases lt_or_eq_of_le hfl with hlt | heq
  · calc roundHalfEven p ≤ ⌊p⌋ + 1 := roundHalfEven_le_floor_add_one p
      _ ≤ ⌊q⌋ := hlt
      _ ≤ roundHalfEven q := floor_le_roundHalfEven q
  · have hfr : p - ⌊p⌋ ≤ q - ⌊q⌋ := by rw [heq]; linarith
    unfold roundHalfEven
    rw [heq] at hfr ⊢
    split_ifs <;> first | omega | (exfalso; linarith)

theorem roundHalfEven_le_of_le {q : ℚ} {n : ℤ} (h : q ≤ n) : roundHalfEven q ≤ n := by
  have := roundHalfEven_mono h
  rwa [roundHalfEven_intCast] at this

theorem le_roundHalfEven_of_le {q : ℚ} {n : ℤ} (h : (n : ℚ) ≤ q) : n ≤ roundHalfEven q := by
  have := roundHalfEven_mono h
  rwa [roundHalfEven_intCast] at this

/-- A rational within less than a half of an integer rounds to that integer. -/
theorem roundHalfEven_eq_of_near {q : ℚ} {n : ℤ} (h1 : (n : ℚ) - 1 / 2 < q)
    (h2 : q < n + 1 / 2) : roundHalfEven q = n := by
  rcases le_or_lt (n : ℚ) q with hge | hlt
  · have hf : ⌊q⌋ = n := Int.floor_eq_iff.mpr ⟨hge, by linarith⟩
    unfold roundHalfEven
    rw [hf, if_pos (by linarith)]
  · have hf : ⌊q⌋ = n - 1 := Int.floor_eq_iff.mpr ⟨by push_cast; linarith, by push_cast; linarith⟩
    unfold roundHalfEven
    rw [hf, if_neg (by push_cast; linarith), if_pos (by push_cast; linarith)]
    omega

theorem ulpExponent_ge (a : ℚ) : -1074 ≤ ulpExponent a := le_max_right _ _

theorem log_sub_le_ulpExponent (a : ℚ) : Int.log 2 a - 52 ≤ ulpExponent a := le_max_left _ _

theorem two_zpow_pos (k : ℤ) : (0 : ℚ) < 2 ^ k := zpow_pos (by norm_num) k

theorem log_eq_of_bounds {a : ℚ} {k : ℤ} (h1 : (2 : ℚ) ^ k ≤ a) (h2 : a < 2 ^ (k + 1)) :
    Int.log 2 a = k := by
  have ha : 0 < a := lt_of_lt_of_le (two_zpow_pos k) h1
  have hle : k ≤ Int.log 2 a := (Int.zpow_le_iff_le_log (by norm_num) ha).mp (by exact_mod_cast h1)
  have hlt : Int.log 2 a < k + 1 := (Int.lt_zpow_iff_log_lt (by norm_num) ha).mp (by exact_mod_cast h2)
  omega

theorem two_zpow_le_two_zpow {m n : ℤ} (h : m ≤ n) : (2 : ℚ) ^ m ≤ 2 ^ n :=
  zpow_le_zpow_right₀ (by norm_num) h

theorem two_zpow_split {e k : ℤ} (h : e ≤ k) :
    (2 : ℚ) ^ k = (((2 : ℤ) ^ (k - e).toNat : ℤ) : ℚ) * 2 ^ e := by
  have h1 : ((k - e).toNat : ℤ) = k - e := Int.toNat_of_nonneg (by omega)
  push_cast
  rw [← zpow_natCast, h1, ← zpow_add₀ (by norm_num : (2 : ℚ) ≠ 0)]
  congr 1
  omega

theorem roundMagnitude_zero : roundMagnitude 0 = 0 := by
  unfold roundMagnitude
  rw [zero_div]
  have : roundHalfEven (0 : ℚ) = 0 := by
    have := roundHalfEven_intCast 0
    simpa using this
  rw [this]
  simp

theorem roundMagnitude_nonneg {a : ℚ} (ha : 0 ≤ a) : 0 ≤ roundMagnitude a := by
  unfold roundMagnitude
  have hq : ((0 : ℤ) : ℚ) ≤ a / 2 ^ ulpExponent a := by
    simpa using div_nonneg ha (le_of_lt (two_zpow_pos _))
  have := le_roundHalfEven_of_le hq
  exact mul_nonneg (by exact_mod_cast this) (le_of_lt (two_zpow_pos _))

theorem roundMagnitude_le_two_zpow {a : ℚ} {k : ℤ} (ha : 0 < a) (h : a ≤ 2 ^ k)
    (hk : -1074 ≤ k) : roundMagnitude a ≤ 2 ^ k := by
  have hlog : Int.log 2 a ≤ k := by
    have hlt : a < (2 : ℚ) ^ (k + 1) :=
      lt_of_le_of_lt h (zpow_lt_zpow_right₀ (by norm_num) (by omega))
    have : Int.log 2 a < k + 1 :=
      (Int.lt_zpow_iff_log_lt (by norm_num) ha).mp (by exact_mod_cast hlt)
    omega
  have he : ulpExponent a ≤ k := max_le (by omega) hk
  unfold roundMagnitude
  have hq : a / 2 ^ ulpExponent a ≤ (((2 : ℤ) ^ (k - ulpExponent a).toNat : ℤ) : ℚ) := by
    rw [div_le_iff₀ (two_zpow_pos _), ← two_zpow_split he]
    exact h
  have := roundHalfEven_le_of_le hq
  calc (roundHalfEven (a / 2 ^ ulpExponent a) : ℚ) * 2 ^ ulpExponent a
      ≤ (((2 : ℤ) ^ (k - ulpExponent a).toNat : ℤ) : ℚ) * 2 ^ ulpExponent a :=
        mul_le_mul_of_nonneg_right (by exact_mod_cast this) (le_of_lt (two_zpow_pos _))
    _ = 2 ^ k := (two_zpow_split he).symm

theorem two_zpow_le_roundMagnitude {a : ℚ} {k : ℤ} (h : (2 : ℚ) ^ k ≤ a)
    (hk : -1074 ≤ k) : (2 : ℚ) ^ k ≤ roundMagnitude a := by
  have ha : 0 < a := lt_of_lt_of_le (two_zpow_pos k) h
  have hkl : k ≤ Int.log 2 a := (Int.zpow_le_iff_le_log (by norm_num) ha).mp (by exact_mod_cast h)
  have hL : (2 : ℚ) ^ Int.log 2 a ≤ a := by
    have := Int.zpow_log_le_self (b := 2) (by norm_num) ha
    exact_mod_cast this
  have he : ulpExponent a ≤ Int.log 2 a := max_le (by omega) (by omega)
  unfold roundMagnitude
  have hq : (((2 : ℤ) ^ (Int.log 2 a - ulpExponent a).toNat : ℤ) : ℚ) ≤ a / 2 ^ ulpExponent a := by
    rw [le_div_iff₀ (two_zpow_pos _), ← two_zpow_split he]
    exact hL
  have := le_roundHalfEven_of_le hq
  calc (2 : ℚ) ^ k ≤ 2 ^ Int.log 2 a := two_zpow_le_two_zpow hkl
    _ = (((2 : ℤ) ^ (Int.log 2 a - ulpExponent a).toNat : ℤ) : ℚ) * 2 ^ ulpExponent a :=
        two_zpow_split he
    _ ≤ (roundHalfEven (a / 2 ^ ulpExponent a) : ℚ) * 2 ^ ulpExponent a :=
        mul_le_mul_of_nonneg_right (by exact_mod_cast this) (le_of_lt (two_zpow_pos _))

theorem lt_two_zpow_ulpExponent {a : ℚ} : a < 2 ^ (ulpExponent a + 53) := by
  have h1 : a < (2 : ℚ) ^ (Int.log 2 a + 1) := by
    have := Int.lt_zpow_succ_log_self (b := 2) (by norm_num) a
    exact_mod_cast this
  exact lt_of_lt_of_le h1 (two_zpow_le_two_zpow (by have := log_sub_le_ulpExponent a; omega))

theorem ulpExponent_mono {a b : ℚ} (ha : 0 < a) (h : a ≤ b) : ulpExponent a ≤ ulpExponent b := by
  have := Int.log_mono_right (b := 2) ha h
  unfold ulpExponent
  exact max_le_max (by omega) (le_refl _)

theorem roundMagnitude_mono {a b : ℚ} (ha : 0 ≤ a) (h : a ≤ b) :
    roundMagnitude a ≤ roundMagnitude b := by
  rcases eq_or_lt_of_le ha with h0 | hpos
  · rw [← h0, roundMagnitude_zero]
    exact roundMagnitude_nonneg (le_trans ha h)
  · have hbpos : 0 < b := lt_of_lt_of_le hpos h
    rcases eq_or_lt_of_le (ulpExponent_mono hpos h) with heq | hlt
    · unfold roundMagnitude
      rw [heq]
      have hq : a / 2 ^ ulpExponent b ≤ b / 2 ^ ulpExponent b :=
        div_le_div_of_nonneg_right h (le_of_lt (two_zpow_pos _))
      exact mul_le_mul_of_nonneg_right (by exact_mod_cast roundHalfEven_mono hq)
        (le_of_lt (two_zpow_pos _))
    · have hbe : ulpExponent b = Int.log 2 b - 52 := by
        have h1 := ulpExponent_ge a
        unfold ulpExponent at hlt ⊢
        rcases max_cases (Int.log 2 b - 52) (-1074) with ⟨h2, _⟩ | ⟨h2, _⟩
        · exact h2
        · rw [h2] at hlt
          unfold ulpExponent at h1
          omega
      have h1 : roundMagnitude a ≤ 2 ^ (ulpExponent a + 53) :=
        roundMagnitude_le_two_zpow hpos (le_of_lt lt_two_zpow_ulpExponent)
          (by have := ulpExponent_ge a; omega)
      have hL : (2 : ℚ) ^ Int.log 2 b ≤ b := by
        have := Int.zpow_log_le_self (b := 2) (by norm_num) hbpos
        exact_mod_cast this
      have h2 : (2 : ℚ) ^ Int.log 2 b ≤ roundMagnitude b :=
        two_zpow_le_roundMagnitude hL (by have := ulpExponent_ge a; omega)
      calc roundMagnitude a ≤ 2 ^ (ulpExponent a + 53) := h1
        _ ≤ 2 ^ Int.log 2 b := two_zpow_le_two_zpow (by omega)
        _ ≤ roundMagnitude b := h2

/-- Every natural multiple `m * 2 ^ e` with `m < 2 ^ 53` and `e ≥ -1074` is a binary64 number
and is left unchanged. -/
theorem roundMagnitude_of_representable (m : ℕ) (e : ℤ) (hm : m < 2 ^ 53) (he : -1074 ≤ e) :
    roundMagnitude ((m : ℚ) * 2 ^ e) = (m : ℚ) * 2 ^ e := by
  rcases Nat.eq_zero_or_pos m with h0 | hpos
  · subst h0
    simp [roundMagnitude_zero]
  · have ha : (0 : ℚ) < (m : ℚ) * 2 ^ e := mul_pos (by exact_mod_cast hpos) (two_zpow_pos _)
    have hlt : (m : ℚ) * 2 ^ e < 2 ^ (e + 53) := by
      rw [add_comm, zpow_add₀ (by norm_num : (2 : ℚ) ≠ 0)]
      exact mul_lt_mul_of_pos_right (by exact_mod_cast hm) (two_zpow_pos _)
    have hlog : Int.log 2 ((m : ℚ) * 2 ^ e) < e + 53 :=
      (Int.lt_zpow_iff_log_lt (by norm_num) ha).mp (by exact_mod_cast hlt)
    have hue : ulpExponent ((m : ℚ) * 2 ^ e) ≤ e := max_le (by omega) he
    unfold roundMagnitude
    have hq : (m : ℚ) * 2 ^ e / 2 ^ ulpExponent ((m : ℚ) * 2 ^ e)
        = (((m : ℤ) * (2 : ℤ) ^ (e - ulpExponent ((m : ℚ) * 2 ^ e)).toNat : ℤ) : ℚ) := by
      rw [div_eq_iff (ne_of_gt (two_zpow_pos _))]
      push_cast
      rw [mul_assoc]
      congr 1
      have := two_zpow_split hue
      push_cast at this
      exact this
    rw [hq, roundHalfEven_intCast, ← hq, div_mul_cancel₀ _ (ne_of_gt (two_zpow_pos _))]

theorem roundBinary64_of_nonneg {x : ℚ} (hx : 0 ≤ x) : roundBinary64 x = roundMagnitude x := by
  unfold roundBinary64
  rw [if_neg (not_lt.mpr hx)]

theorem roundBinary64_zero : roundBinary64 0 = 0 := by
  rw [roundBinary64_of_nonneg (le_refl _), roundMagnitude_zero]

theorem abs_roundBinary64 (x : ℚ) : |roundBinary64 x| = roundMagnitude |x| := by
  unfold roundBinary64
  split_ifs with h
  · rw [abs_neg, abs_of_nonneg (roundMagnitude_nonneg (by linarith)), abs_of_neg h]
  · push_neg at h
    rw [abs_of_nonneg (roundMagnitude_nonneg h), abs_of_nonneg h]

theorem snapTolerance_pos : 0 < snapTolerance := by
  unfold snapTolerance
  norm_num

theorem snapTolerance_lt_dblMax : snapTolerance < dblMax := by
  unfold snapTolerance dblMax
  norm_num

theorem dblMax_pos : 0 < dblMax := lt_trans snapTolerance_pos snapTolerance_lt_dblMax

/-- The test `fabs( x - y ) < tol` on doubles, for a tolerance below the largest double: it
holds exactly when the rounded magnitude of the difference is below the tolerance. -/
theorem fabs_doubleSub_lt (x y tol : ℚ) (htol : tol ≤ dblMax) :
    (doubleSub x y).fabs.lt (.fin tol) = true ↔ roundMagnitude |x - y| < tol := by
  rw [← abs_roundBinary64]
  unfold doubleSub Dbl.ofRounded
  have hd := dblMax_pos
  split_ifs with h1 h2
  · simp only [Dbl.fabs, Dbl.lt, Bool.false_eq_true, false_iff, not_lt]
    exact le_trans htol (le_trans (le_of_lt h1) (le_abs_self _))
  · simp only [Dbl.fabs, Dbl.lt, Bool.false_eq_true, false_iff, not_lt]
    have : dblMax < |roundBinary64 (x - y)| := by
      rw [abs_of_neg (by linarith)]
      linarith
    linarith
  · simp only [Dbl.fabs, Dbl.lt, decide_eq_true_eq]

theorem ulpExponent_eq {a : ℚ} {k : ℤ} (h1 : (2 : ℚ) ^ k ≤ a) (h2 : a < 2 ^ (k + 1))
    (hk : -1022 ≤ k) : ulpExponent a = k - 52 := by
  unfold ulpExponent
  rw [log_eq_of_bounds h1 h2]
  exact max_eq_left (by omega)

/-- Evaluation of the rounding in the binade of `2 ^ k`: the multiple `n` of the unit
`2 ^ (k - 52)` that lies within less than half a unit. -/
theorem roundMagnitude_eq_of_near {a : ℚ} {k n : ℤ} (h1 : (2 : ℚ) ^ k ≤ a)
    (h2 : a < 2 ^ (k + 1)) (hk : -1022 ≤ k)
    (hn1 : (n : ℚ) - 1 / 2 < a / 2 ^ (k - 52)) (hn2 : a / 2 ^ (k - 52) < n + 1 / 2) :
    roundMagnitude a = n * 2 ^ (k - 52) := by
  unfold roundMagnitude
  rw [ulpExponent_eq h1 h2 hk, roundHalfEven_eq_of_near hn1 hn2]

/-- No binary64 number lies between one ten-thousandth and the double `0.0001`: a rounded
magnitude is below the one exactly when it is below the other. -/
theorem roundMagnitude_lt_tolerance_iff {a : ℚ} (ha : 0 ≤ a) :
    roundMagnitude a < snapTolerance ↔ roundMagnitude a < 1 / 10000 := by
  constructor
  · intro h
    rcases lt_or_le a (2 ^ (-14 : ℤ)) with hlo | hlo
    · rcases eq_or_lt_of_le ha with h0 | hpos
      · rw [← h0, roundMagnitude_zero]
        norm_num
      · have := roundMagnitude_le_two_zpow hpos (le_of_lt hlo) (by norm_num)
        have h14 : (2 : ℚ) ^ (-14 : ℤ) < 1 / 10000 := by norm_num
        exact lt_of_le_of_lt this h14
    · rcases lt_or_le a (2 ^ (-14 + 1 : ℤ)) with hhi | hhi
      · have he := ulpExponent_eq hlo hhi (by norm_num)
        unfold roundMagnitude at h ⊢
        rw [he] at h ⊢
        have h66 : (0 : ℚ) < 2 ^ (-14 - 52 : ℤ) := two_zpow_pos _
        have hN : roundHalfEven (a / 2 ^ (-14 - 52 : ℤ)) < 7378697629483821 := by
          have h' : (roundHalfEven (a / 2 ^ (-14 - 52 : ℤ)) : ℚ) < 7378697629483821 := by
            unfold snapTolerance at h
            have e : (7378697629483821 : ℚ) / 2 ^ 66 = 7378697629483821 * 2 ^ (-14 - 52 : ℤ) := by
              norm_num
            rw [e] at h
            exact lt_of_mul_lt_mul_right h (le_of_lt h66)
          exact_mod_cast h'
        have hN' : (roundHalfEven (a / 2 ^ (-14 - 52 : ℤ)) : ℚ) ≤ 7378697629483820 := by
          exact_mod_cast (show roundHalfEven (a / 2 ^ (-14 - 52 : ℤ)) ≤ 7378697629483820 by omega)
        calc (roundHalfEven (a / 2 ^ (-14 - 52 : ℤ)) : ℚ) * 2 ^ (-14 - 52 : ℤ)
            ≤ 7378697629483820 * 2 ^ (-14 - 52 : ℤ) :=
              mul_le_mul_of_nonneg_right hN' (le_of_lt h66)
          _ < 1 / 10000 := by norm_num
      · have := two_zpow_le_roundMagnitude hhi (by norm_num)
        have h13 : snapTolerance < (2 : ℚ) ^ (-14 + 1 : ℤ) := by
          unfold snapTolerance
          norm_num
        exact absurd (lt_of_le_of_lt this h) (not_lt.mpr (le_of_lt h13))
  · intro h
    have : (1 : ℚ) / 10000 < snapTolerance := by
      unfold snapTolerance
      norm_num
    linarith

theorem roundMagnitude_one : roundMagnitude 1 = 1 := by
  have := roundMagnitude_of_representable 1 0 (by norm_num) (by norm_num)
  simpa using this

/-- The binary64 quotient of two rounded differences `0 < ra ≤ rb`: not a number when the
numerator overflowed, else a number between 0 and 1. -/
theorem div_ofRounded_range {ra rb : ℚ} (ha : 0 < ra) (hab : ra ≤ rb) :
    (dblMax < ra ∧ (Dbl.ofRounded ra).div (Dbl.ofRounded rb) = .nan) ∨
    (ra ≤ dblMax ∧ ∃ w, (Dbl.ofRounded ra).div (Dbl.ofRounded rb) = .fin w ∧ 0 ≤ w ∧ w ≤ 1) := by
  have hd := dblMax_pos
  rcases lt_or_le dblMax ra with hover | hfin
  · left
    refine ⟨hover, ?_⟩
    have hbo : dblMax < rb := lt_of_lt_of_le hover hab
    have hA : Dbl.ofRounded ra = .posInf := by simp only [Dbl.ofRounded, hover, if_true]
    have hB : Dbl.ofRounded rb = .posInf := by simp only [Dbl.ofRounded, hbo, if_true]
    rw [hA, hB]
    rfl
  · right
    refine ⟨hfin, ?_⟩
    have hA : Dbl.ofRounded ra = .fin ra := by
      simp only [Dbl.ofRounded, not_lt.mpr hfin, if_false]
      rw [if_neg (by linarith)]
    rcases lt_or_le dblMax rb with hbo | hbfin
    · refine ⟨0, ?_, le_refl _, by norm_num⟩
      have hB : Dbl.ofRounded rb = .posInf := by simp only [Dbl.ofRounded, hbo, if_true]
      rw [hA, hB]
      rfl
    · have hB : Dbl.ofRounded rb = .fin rb := by
        simp only [Dbl.ofRounded, not_lt.mpr hbfin, if_false]
        rw [if_neg (by linarith)]
      have hb : 0 < rb := lt_of_lt_of_le ha hab
      have hq0 : 0 ≤ ra / rb := le_of_lt (div_pos ha hb)
      have hq1 : ra / rb ≤ 1 := (div_le_one hb).mpr hab
      have hr0 : 0 ≤ roundMagnitude (ra / rb) := roundMagnitude_nonneg hq0
      have hr1 : roundMagnitude (ra / rb) ≤ 1 := by
        have := roundMagnitude_mono hq0 hq1
        rwa [roundMagnitude_one] at this
      have h1max : (1 : ℚ) ≤ dblMax := by
        unfold dblMax
        norm_num
      refine ⟨roundMagnitude (ra / rb), ?_, hr0, hr1⟩
      rw [hA, hB]
      simp only [Dbl.div, ne_of_gt hb, if_false, roundBinary64_of_nonneg hq0, Dbl.ofRounded]
      rw [if_neg (by linarith), if_neg (by linarith)]

/-! ## Lemmas on the table scans -/

theorem lastAtMost_some {ts : TimeSampling} {t : ℚ} :
    ∀ {n i : Nat}, ts.lastAtMost t n = some i →
      i < n ∧ ts.getSampleTime i ≤ t ∧ ∀ j, i < j → j < n → t < ts.getSampleTime j
  | 0, i, h => by simp [TimeSampling.lastAtMost] at h
  | k + 1, i, h => by
    simp only [TimeSampling.lastAtMost] at h
    split at h
    · next hk =>
      cases h
      exact ⟨Nat.lt_succ_self _, hk, fun j h1 h2 => by omega⟩
    · next hk =>
      obtain ⟨h1, h2, h3⟩ := lastAtMost_some h
      refine ⟨by omega, h2, fun j hj hjn => ?_⟩
      by_cases hjk : j = k
      · subst hjk
        exact lt_of_not_le hk
      · exact h3 j hj (by omega)

theorem lastAtMost_none {ts : TimeSampling} {t : ℚ} :
    ∀ {n : Nat}, ts.lastAtMost t n = none → ∀ j, j < n → t < ts.getSampleTime j
  | 0, _, j, hj => by omega
  | k + 1, h, j, hj => by
    simp only [TimeSampling.lastAtMost] at h
    split at h
    · cases h
    · next hk =>
      by_cases hjk : j = k
      · subst hjk
        exact lt_of_not_le hk
      · exact lastAtMost_none h j (by omega)

theorem firstAtLeast_none {ts : TimeSampling} {t : ℚ} :
    ∀ {n : Nat}, ts.firstAtLeast t n = none → ∀ j, j < n → ts.getSampleTime j < t
  | 0, _, j, hj => by omega
  | k + 1, h, j, hj => by
    simp only [TimeSampling.firstAtLeast] at h
    split at h
    · cases h
    · next hnone =>
      split at h
      · cases h
      · next hk =>
        by_cases hjk : j = k
        · subst hjk
          exact lt_of_not_le hk
        · exact firstAtLeast_none hnone j (by omega)

theorem firstAtLeast_some {ts : TimeSampling} {t : ℚ} :
    ∀ {n i : Nat}, ts.firstAtLeast t n = some i →
      i < n ∧ t ≤ ts.getSampleTime i ∧ ∀ j, j < i → ts.getSampleTime j < t
  | 0, i, h => by simp [TimeSampling.firstAtLeast] at h
  | k + 1, i, h => by
    simp only [TimeSampling.firstAtLeast] at h
    split at h
    · next i0 hi0 =>
      cases h
      obtain ⟨h1, h2, h3⟩ := firstAtLeast_some hi0
      exact ⟨by omega, h2, h3⟩
    · next hnone =>
      split at h
      · next hk =>
        cases h
        exact ⟨Nat.lt_succ_self _, hk, fun j hj => firstAtLeast_none hnone j hj⟩
      · cases h

/-- The floor entry of a table with at least one sample: its index is in range, and when
some entry is at most the query it is the greatest such entry, else it is entry 0. -/
theorem getFloorIndex_spec (ts : TimeSampling) (t : ℚ) (n : Nat) (hn : 1 ≤ n) :
    (ts.getFloorIndex t n).1 < n ∧
    (ts.getFloorIndex t n).2 = ts.getSampleTime (ts.getFloorIndex t n).1 ∧
    ((∃ i, i < n ∧ ts.getSampleTime i ≤ t) →
      ts.getSampleTime (ts.getFloorIndex t n).1 ≤ t ∧
      ∀ j, j < n → ts.getSampleTime j ≤ t → j ≤ (ts.getFloorIndex t n).1) ∧
    ((¬ ∃ i, i < n ∧ ts.getSampleTime i ≤ t) → (ts.getFloorIndex t n).1 = 0) := by
  simp only [TimeSampling.getFloorIndex]
  cases hl : ts.lastAtMost t n with
  | none =>
    have hall := lastAtMost_none hl
    refine ⟨by simpa using hn, trivial, ?_, fun _ => rfl⟩
    rintro ⟨i, hi, hle⟩
    exact absurd (hall i hi) (not_lt.mpr hle)
  | some i =>
    obtain ⟨h1, h2, h3⟩ := lastAtMost_some hl
    refine ⟨h1, trivial, fun _ => ⟨h2, fun j hj hle => ?_⟩, fun hne => absurd ⟨i, h1, h2⟩ hne⟩
    by_contra hcon
    exact absurd (h3 j (by simpa using hcon) hj) (not_lt.mpr hle)

/-- The ceil entry of a table with at least one sample: its index is in range, and when
some entry is at least the query it is the smallest such entry, else it is the last. -/
theorem getCeilIndex_spec (ts : TimeSampling) (t : ℚ) (n : Nat) (hn : 1 ≤ n) :
    (ts.getCeilIndex t n).1 < n ∧
    (ts.getCeilIndex t n).2 = ts.getSampleTime (ts.getCeilIndex t n).1 ∧
    ((∃ i, i < n ∧ t ≤ ts.getSampleTime i) →
      t ≤ ts.getSampleTime (ts.getCeilIndex t n).1 ∧
      ∀ j, j < n → t ≤ ts.getSampleTime j → (ts.getCeilIndex t n).1 ≤ j) ∧
    ((¬ ∃ i, i < n ∧ t ≤ ts.getSampleTime i) → (ts.getCeilIndex t n).1 = n - 1) := by
  simp only [TimeSampling.getCeilIndex]
  cases hl : ts.firstAtLeast t n with
  | none =>
    have hall := firstAtLeast_none hl
    refine ⟨by simp only [Option.getD_none]; omega, trivial, ?_, fun _ => rfl⟩
    rintro ⟨i, hi, hle⟩
    exact absurd (hall i hi) (not_lt.mpr hle)
  | some i =>
    obtain ⟨h1, h2, h3⟩ := firstAtLeast_some hl
    refine ⟨h1, trivial, fun _ => ⟨h2, fun j hj hle => ?_⟩, fun hne => absurd ⟨i, h1, h2⟩ hne⟩
    by_contra hcon
    exact absurd (h3 j (by simpa using hcon)) (not_lt.mpr hle)

/-- On a strictly increasing table the floor entry at a sample's own time is that
sample. -/
theorem getFloorIndex_sampleTime (ts : TimeSampling) (n i : Nat) (hi : i < n)
    (hmono : StrictlyIncreasing ts n) :
    ts.getFloorIndex (ts.getSampleTime i) n = (i, ts.getSampleTime i) := by
  obtain ⟨h1, -, h3, -⟩ := getFloorIndex_spec ts (ts.getSampleTime i) n (by omega)
  obtain ⟨h4, h5⟩ := h3 ⟨i, hi, le_refl _⟩
  have hle : i ≤ (ts.getFloorIndex (ts.getSampleTime i) n).1 := h5 i hi (le_refl _)
  have heq : (ts.getFloorIndex (ts.getSampleTime i) n).1 = i := by
    rcases Nat.lt_or_ge i (ts.getFloorIndex (ts.getSampleTime i) n).1 with hlt | hge
    · exact absurd (hmono _ _ hlt h1) (not_lt.mpr h4)
    · omega
  have h2 : (ts.getFloorIndex (ts.getSampleTime i) n).2
      = ts.getSampleTime (ts.getFloorIndex (ts.getSampleTime i) n).1 := rfl
  exact Prod.ext heq (by rw [h2, heq])

/-! ## Lemmas on the three cases -/

/-- The snap test of `sampleInterval`, `fabs( x - y ) < 0.0001` in binary64, holds exactly
when the rounded magnitude of the difference is below the double `0.0001`. -/
theorem snap_iff (x y : ℚ) :
    (doubleSub x y).fabs.lt (.fin snapTolerance) = true
      ↔ roundMagnitude |x - y| < snapTolerance :=
  fabs_doubleSub_lt x y snapTolerance (le_of_lt snapTolerance_lt_dblMax)

theorem snap_self (x : ℚ) : (doubleSub x x).fabs.lt (.fin snapTolerance) = true := by
  rw [snap_iff, sub_self, abs_zero, roundMagnitude_zero]
  exact snapTolerance_pos

/-- On binary64 differences the tolerance `1e-4` and the double `0.0001` decide the snap
test alike. -/
theorem snap_eq_spec (x y : ℚ) :
    (doubleSub x y).fabs.lt (.fin snapTolerance) = (doubleSub x y).fabs.lt (.fin (1 / 10000)) := by
  have hmax : (1 : ℚ) / 10000 ≤ dblMax := by
    unfold dblMax
    norm_num
  rw [Bool.eq_iff_iff, snap_iff, fabs_doubleSub_lt x y (1 / 10000) hmax,
    roundMagnitude_lt_tolerance_iff (abs_nonneg _)]

/-- A difference of magnitude at least `2 ^ -13` does not pass the snap test. -/
theorem not_snap_of_le {x y : ℚ} (h : (2 : ℚ) ^ (-13 : ℤ) ≤ |x - y|) :
    ¬ (doubleSub x y).fabs.lt (.fin snapTolerance) = true := by
  rw [snap_iff, not_lt]
  have h1 := two_zpow_le_roundMagnitude h (by norm_num)
  have h2 : snapTolerance ≤ (2 : ℚ) ^ (-13 : ℤ) := by
    unfold snapTolerance
    norm_num
  exact le_trans h2 h1

/-- The floor and ceil entries of a strictly increasing table when their indices differ:
they are neighbours in the sample range and their times bracket the query. -/
theorem candidates_of_ne (ts : TimeSampling) (n : Nat) (t : ℚ)
    (hmono : StrictlyIncreasing ts n)
    (hidx : (ts.getFloorIndex t n).1 ≠ (ts.getCeilIndex t n).1) :
    (ts.getCeilIndex t n).1 = (ts.getFloorIndex t n).1 + 1 ∧ (ts.getCeilIndex t n).1 < n ∧
    ts.getSampleTime (ts.getFloorIndex t n).1 ≤ t ∧
    t ≤ ts.getSampleTime (ts.getCeilIndex t n).1 ∧
    ts.getSampleTime (ts.getFloorIndex t n).1 < ts.getSampleTime (ts.getCeilIndex t n).1 := by
  have hn : 1 ≤ n := by
    rcases Nat.eq_zero_or_pos n with h0 | hpos
    · subst h0
      exact absurd rfl hidx
    · exact hpos
  obtain ⟨f1, -, f3, f4⟩ := getFloorIndex_spec ts t n hn
  obtain ⟨c1, -, c3, c4⟩ := getCeilIndex_spec ts t n hn
  have hex1 : ∃ i, i < n ∧ ts.getSampleTime i ≤ t := by
    by_contra hcon
    have hf0 := f4 hcon
    have h0 : t ≤ ts.getSampleTime 0 := by
      by_contra h0
      exact hcon ⟨0, by omega, le_of_lt (lt_of_not_le h0)⟩
    have hc0 := (c3 ⟨0, by omega, h0⟩).2 0 (by omega) h0
    exact hidx (by omega)
  have hex2 : ∃ i, i < n ∧ t ≤ ts.getSampleTime i := by
    by_contra hcon
    have hcl := c4 hcon
    have hl : ts.getSampleTime (n - 1) ≤ t := by
      by_contra hl
      exact hcon ⟨n - 1, by omega, le_of_lt (lt_of_not_le hl)⟩
    have hfl := (f3 ⟨n - 1, by omega, hl⟩).2 (n - 1) (by omega) hl
    exact hidx (by omega)
  obtain ⟨hft, hfmax⟩ := f3 hex1
  obtain ⟨hct, hcmin⟩ := c3 hex2
  have hlt : (ts.getFloorIndex t n).1 < (ts.getCeilIndex t n).1 := by
    rcases Nat.lt_trichotomy (ts.getFloorIndex t n).1 (ts.getCeilIndex t n).1 with h | h | h
    · exact h
    · exact absurd h hidx
    · exact absurd (hmono _ _ h f1) (not_lt.mpr (le_trans hft hct))
  have hnext : (ts.getCeilIndex t n).1 = (ts.getFloorIndex t n).1 + 1 := by
    have hin : (ts.getFloorIndex t n).1 + 1 < n := by omega
    have habove : t ≤ ts.getSampleTime ((ts.getFloorIndex t n).1 + 1) := by
      by_contra hcon
      have := hfmax _ hin (le_of_lt (lt_of_not_le hcon))
      omega
    have := hcmin _ hin habove
    omega
  exact ⟨hnext, c1, hft, hct, hmono _ _ hlt c1⟩

/-- The third case of `sampleIntervalOn`: different result indices arise only there. -/
theorem sampleIntervalOn_of_ne (ts : TimeSampling) (n : Nat) (t : ℚ)
    (hne : (sampleIntervalOn ts n t).floorIndex ≠ (sampleIntervalOn ts n t).ceilIndex) :
    ¬ (doubleSub t (ts.getFloorIndex t n).2).fabs.lt (.fin snapTolerance) = true ∧
    (ts.getFloorIndex t n).1 ≠ (ts.getCeilIndex t n).1 ∧
    ¬ (doubleSub t (ts.getCeilIndex t n).2).fabs.lt (.fin snapTolerance) = true ∧
    sampleIntervalOn ts n t =
      ⟨(ts.getFloorIndex t n).1, (ts.getCeilIndex t n).1,
        (doubleSub t (ts.getFloorIndex t n).2).div
          (doubleSub (ts.getCeilIndex t n).2 (ts.getFloorIndex t n).2)⟩ := by
  simp only [sampleIntervalOn] at hne ⊢
  split_ifs at hne ⊢ with h1 h2
  · exact absurd rfl hne
  · exact absurd rfl hne
  · push_neg at h2
    exact ⟨h1, h2.1, h2.2, rfl⟩

/-- The indices of the three cases on a table with at least one sample lie in the sample
range. -/
theorem sampleIntervalOn_indices (ts : TimeSampling) (n : Nat) (t : ℚ) (hn : 1 ≤ n) :
    (sampleIntervalOn ts n t).floorIndex < n ∧ (sampleIntervalOn ts n t).ceilIndex < n := by
  obtain ⟨f1, -⟩ := getFloorIndex_spec ts t n hn
  obtain ⟨c1, -⟩ := getCeilIndex_spec ts t n hn
  simp only [sampleIntervalOn]
  split_ifs
  · exact ⟨f1, f1⟩
  · exact ⟨c1, c1⟩
  · exact ⟨f1, c1⟩

/-- The rounded differences of the third case on a strictly increasing table: the one to
the floor time is at least the tolerance and at most the one between the two times. -/
theorem rounded_differences_of_ne (ts : TimeSampling) (n : Nat) (t : ℚ)
    (hmono : StrictlyIncreasing ts n)
    (hne : (sampleIntervalOn ts n t).floorIndex ≠ (sampleIntervalOn ts n t).ceilIndex) :
    snapTolerance ≤ roundBinary64 (t - (ts.getFloorIndex t n).2) ∧
    roundBinary64 (t - (ts.getFloorIndex t n).2)
      ≤ roundBinary64 ((ts.getCeilIndex t n).2 - (ts.getFloorIndex t n).2) := by
  obtain ⟨hs1, hidx, -, -⟩ := sampleIntervalOn_of_ne ts n t hne
  obtain ⟨-, -, hft, hct, -⟩ := candidates_of_ne ts n t hmono hidx
  have hf2 : (ts.getFloorIndex t n).2 = ts.getSampleTime (ts.getFloorIndex t n).1 := rfl
  have hc2 : (ts.getCeilIndex t n).2 = ts.getSampleTime (ts.getCeilIndex t n).1 := rfl
  have ha : 0 ≤ t - (ts.getFloorIndex t n).2 := by rw [hf2]; linarith
  have hb : t - (ts.getFloorIndex t n).2
      ≤ (ts.getCeilIndex t n).2 - (ts.getFloorIndex t n).2 := by rw [hc2]; linarith
  rw [snap_iff, not_lt, abs_of_nonneg ha] at hs1
  rw [roundBinary64_of_nonneg ha, roundBinary64_of_nonneg (le_trans ha hb)]
  exact ⟨hs1, roundMagnitude_mono ha hb⟩

/-- The three cases on a strictly increasing table with at least one sample: the indices
are ordered, and the weight is a number between 0 and 1 unless the difference to the
floor time overflowed, when it is not a number. -/
theorem sampleIntervalOn_weight (ts : TimeSampling) (n : Nat) (t : ℚ)
    (hmono : StrictlyIncreasing ts n) :
    (sampleIntervalOn ts n t).floorIndex ≤ (sampleIntervalOn ts n t).ceilIndex ∧
    (((sampleIntervalOn ts n t).weight = .nan ∧
        dblMax < roundBinary64 (t - ts.getSampleTime (sampleIntervalOn ts n t).floorIndex)) ∨
      ∃ w, (sampleIntervalOn ts n t).weight = .fin w ∧ 0 ≤ w ∧ w ≤ 1) := by
  by_cases hne : (sampleIntervalOn ts n t).floorIndex = (sampleIntervalOn ts n t).ceilIndex
  · refine ⟨le_of_eq hne, Or.inr ⟨0, ?_, le_refl _, by norm_num⟩⟩
    simp only [sampleIntervalOn] at hne ⊢
    split_ifs at hne ⊢ with h1 h2
    · rfl
    · rfl
    · push_neg at h2
      exact absurd hne h2.1
  · obtain ⟨-, hidx, -, hval⟩ := sampleIntervalOn_of_ne ts n t hne
    obtain ⟨hnext, -, -, -, -⟩ := candidates_of_ne ts n t hmono hidx
    obtain ⟨hra, hab⟩ := rounded_differences_of_ne ts n t hmono hne
    have hpos := lt_of_lt_of_le snapTolerance_pos hra
    rw [hval]
    refine ⟨by show (ts.getFloorIndex t n).1 ≤ (ts.getCeilIndex t n).1; omega, ?_⟩
    rcases div_ofRounded_range hpos hab with ⟨hover, hnan⟩ | ⟨-, w, hw, h0, h1⟩
    · exact Or.inl ⟨hnan, hover⟩
    · exact Or.inr ⟨w, hw, h0, h1⟩

/-! ## Lemmas on the cached sample count and table -/

theorem ensureTimeSampling_numSamples (h : AlembicInput) :
    (ensureTimeSampling h).numSamples = h.numSamples ∧
      (ensureTimeSampling h).object = h.object := by
  unfold ensureTimeSampling
  split
  · exact ⟨rfl, rfl⟩
  · split_ifs <;> exact ⟨rfl, rfl⟩

theorem numSamples_snd_fields (h : AlembicInput) :
    (numSamples h).2.timeSampling = h.timeSampling ∧ (numSamples h).2.object = h.object ∧
      (numSamples h).2.archive = h.archive ∧ (numSamples h).2.boundValid = h.boundValid ∧
      (numSamples h).2.bound = h.bound := by
  unfold numSamples
  split_ifs <;> exact ⟨rfl, rfl, rfl, rfl, rfl⟩

theorem numSamples_fst_congr (h k : AlembicInput) (hn : k.numSamples = h.numSamples)
    (ho : k.object = h.object) : (numSamples k).1 = (numSamples h).1 := by
  unfold numSamples
  rw [hn, ho]
  split_ifs <;> rfl

theorem numSamples_fst_ensure (h : AlembicInput) :
    (numSamples (ensureTimeSampling h)).1 = (numSamples h).1 :=
  numSamples_fst_congr h _ (ensureTimeSampling_numSamples h).1 (ensureTimeSampling_numSamples h).2

/-- The function `numSamples` through the backend's count of the node's schema. -/
theorem numSamples_eq (h : AlembicInput) :
    numSamples h =
      if h.numSamples ≠ -1 then (toSizeT h.numSamples, h)
      else (toSizeT (toInt h.object.schemaNumSamples),
        { h with numSamples := toInt h.object.schemaNumSamples }) := by
  unfold numSamples IObject.schemaNumSamples
  split_ifs <;> rfl

/-- A second call of `numSamples` returns what the first returned. -/
theorem numSamples_twice (h : AlembicInput) :
    (numSamples (numSamples h).2).1 = (numSamples h).1 := by
  by_cases hc : h.numSamples ≠ -1
  · have e : numSamples h = (toSizeT h.numSamples, h) := by rw [numSamples_eq, if_pos hc]
    rw [e]
    exact congrArg Prod.fst e
  · have e : numSamples h = (toSizeT (toInt h.object.schemaNumSamples),
        { h with numSamples := toInt h.object.schemaNumSamples }) := by
      rw [numSamples_eq, if_neg hc]
    rw [e]
    rw [numSamples_eq]
    split_ifs <;> rfl

/-- The table consulted on a handle: the cached one, else the backend's table of the
node's schema. -/
theorem tableOf_eq (h : AlembicInput) :
    tableOf h = h.timeSampling.getD h.object.schemaTimeSampling := by
  unfold tableOf ensureTimeSampling DataMembers.derefTimeSampling IObject.schemaTimeSampling
  cases hts : h.timeSampling with
  | some ts => simp only [hts, Option.getD_some]
  | none =>
    simp only [Option.getD_none]
    split_ifs <;> rfl

theorem tableOf_congr (h k : AlembicInput) (ht : k.timeSampling = h.timeSampling)
    (ho : k.object = h.object) : tableOf k = tableOf h := by
  rw [tableOf_eq, tableOf_eq, ht, ho]

theorem ensureTimeSampling_isSome (h : AlembicInput) :
    (ensureTimeSampling h).timeSampling = some (tableOf h) := by
  unfold tableOf ensureTimeSampling DataMembers.derefTimeSampling
  cases hts : h.timeSampling with
  | some ts => simp only [hts]
  | none =>
    simp only
    split_ifs <;> rfl

theorem tableOf_numSamples (h : AlembicInput) : tableOf (numSamples h).2 = tableOf h :=
  tableOf_congr h _ (numSamples_snd_fields h).1 (numSamples_snd_fields h).2.1

/-- The result of `sampleInterval` on a handle is the three-case resolution on the
handle's table and sample count. -/
theorem sampleInterval_fst (h : AlembicInput) (t : ℚ) :
    (sampleInterval h t).1 = sampleIntervalOn (tableOf h) (numSamples h).1 t := by
  have e1 := numSamples_fst_ensure h
  have e2 := numSamples_twice (ensureTimeSampling h)
  simp only [sampleInterval, sampleIntervalOn, tableOf, e1, e2]
  split_ifs <;> rfl

/-- The result of `sampleTime` on a handle. -/
theorem sampleTime_fst (h : AlembicInput) (i : Nat) :
    (sampleTime h i).1 =
      if i ≥ (numSamples h).1 then .error (.invalidArgument "Sample index out of range")
      else .ok ((tableOf h).getSampleTime i) := by
  simp only [sampleTime]
  split_ifs
  · rfl
  · show Except.ok ((tableOf (numSamples h).2).getSampleTime i) = _
    rw [tableOf_numSamples]

/-- The members after `sampleTime` hold the same table and the same sample count. -/
theorem sampleTime_snd (h : AlembicInput) (i : Nat) :
    tableOf (sampleTime h i).2 = tableOf h ∧
      (numSamples (sampleTime h i).2).1 = (numSamples h).1 := by
  simp only [sampleTime]
  split_ifs
  · exact ⟨tableOf_numSamples h, numSamples_twice h⟩
  · constructor
    · have : tableOf (ensureTimeSampling (numSamples h).2) = tableOf (numSamples h).2 := by
        rw [tableOf_eq (ensureTimeSampling (numSamples h).2), ensureTimeSampling_isSome]
        rfl
      exact this.trans (tableOf_numSamples h)
    · rw [numSamples_fst_ensure, numSamples_twice]

/-- On a handle whose cached table agrees with the backend, the table consulted is the
backend's table of the node's schema. -/
theorem tableOf_eq_schema (h : AlembicInput) (hc : TimeCacheOk h) :
    tableOf h = h.object.schemaTimeSampling := by
  rw [tableOf_eq]
  cases hts : h.timeSampling with
  | some ts => exact hc ts hts
  | none => rfl

theorem timeCacheOk_init (archive : IArchive) (object : IObject) :
    TimeCacheOk (DataMembers.init archive object) := by
  intro ts hts
  cases hts

theorem threeSampleInput_numSamples : (numSamples threeSampleInput).1 = 3 := by
  decide

theorem threeSampleInput_table :
    (tableOf threeSampleInput).getSampleTime 0 = 0 ∧
      (tableOf threeSampleInput).getSampleTime 1 = dbl_0_04 ∧
      (tableOf threeSampleInput).getSampleTime 2 = dbl_0_08 :=
  ⟨rfl, rfl, rfl⟩

theorem threeSampleInput_increasing :
    StrictlyIncreasing (tableOf threeSampleInput) (numSamples threeSampleInput).1 := by
  rw [threeSampleInput_numSamples]
  obtain ⟨h0, h1, h2⟩ := threeSampleInput_table
  intro i j hij hj
  have hcases : (i = 0 ∧ j = 1) ∨ (i = 0 ∧ j = 2) ∨ (i = 1 ∧ j = 2) := by omega
  rcases hcases with ⟨rfl, rfl⟩ | ⟨rfl, rfl⟩ | ⟨rfl, rfl⟩
  · rw [h0, h1]; unfold dbl_0_04; norm_num
  · rw [h0, h2]; unfold dbl_0_08; norm_num
  · rw [h1, h2]; unfold dbl_0_04 dbl_0_08; norm_num

/-! ## Evaluation of the scenario tables -/

theorem tableInput_table (n : Nat) (ts : TimeSampling) : tableOf (tableInput n ts) = ts :=
  rfl

theorem tableInput_two (ts : TimeSampling) : (numSamples (tableInput 2 ts)).1 = 2 :=
  rfl

theorem strictlyIncreasing_two (ts : TimeSampling)
    (h : ts.getSampleTime 0 < ts.getSampleTime 1) : StrictlyIncreasing ts 2 := by
  intro i j hij hj
  have hcases : i = 0 ∧ j = 1 := by omega
  rcases hcases with ⟨rfl, rfl⟩
  exact h

/-- A binary64 difference whose rounded value is a finite double. -/
theorem doubleSub_eq_fin {x y r : ℚ} (hr : roundBinary64 (x - y) = r) (h1 : r ≤ dblMax)
    (h2 : -dblMax ≤ r) : doubleSub x y = .fin r := by
  unfold doubleSub Dbl.ofRounded
  rw [hr, if_neg (not_lt.mpr h1), if_neg (not_lt.mpr h2)]

/-- A binary64 difference of at least `2 ^ 1024` overflows to the positive infinity. -/
theorem doubleSub_eq_posInf {x y : ℚ} (h : (2 : ℚ) ^ (1024 : ℤ) ≤ x - y) :
    doubleSub x y = .posInf := by
  have hpos : 0 ≤ x - y := le_trans (le_of_lt (two_zpow_pos _)) h
  have h1 := two_zpow_le_roundMagnitude h (by norm_num)
  have h2 : dblMax < (2 : ℚ) ^ (1024 : ℤ) := by
    unfold dblMax
    norm_num
  unfold doubleSub Dbl.ofRounded
  rw [roundBinary64_of_nonneg hpos, if_pos (lt_of_lt_of_le h2 h1)]

/-- The two candidates on a two-sample table for a query after the first time and before
the second. -/
theorem candidates_two (ts : TimeSampling) (t : ℚ) (h0 : ts.getSampleTime 0 < t)
    (h1 : t < ts.getSampleTime 1) :
    ts.getFloorIndex t 2 = (0, ts.getSampleTime 0) ∧
      ts.getCeilIndex t 2 = (1, ts.getSampleTime 1) := by
  simp only [TimeSampling.getFloorIndex, TimeSampling.getCeilIndex, TimeSampling.lastAtMost,
    TimeSampling.firstAtLeast, le_of_lt h0, not_le.mpr h1, not_le.mpr h0, le_of_lt h1, if_true,
    if_false, Option.getD_some, and_self]

/-- The third case on a two-sample table: a query strictly between the two times that
passes neither snap test gets the indices 0 and 1 and the binary64 quotient. -/
theorem sampleIntervalOn_two (ts : TimeSampling) (t : ℚ) (h0 : ts.getSampleTime 0 < t)
    (h1 : t < ts.getSampleTime 1)
    (hs0 : ¬ (doubleSub t (ts.getSampleTime 0)).fabs.lt (.fin snapTolerance) = true)
    (hs1 : ¬ (doubleSub t (ts.getSampleTime 1)).fabs.lt (.fin snapTolerance) = true) :
    sampleIntervalOn ts 2 t =
      ⟨0, 1, (doubleSub t (ts.getSampleTime 0)).div
        (doubleSub (ts.getSampleTime 1) (ts.getSampleTime 0))⟩ := by
  obtain ⟨hf, hc⟩ := candidates_two ts t h0 h1
  simp only [sampleIntervalOn, hf, hc]
  rw [if_neg hs0, if_neg (by
    rintro (h | h)
    · exact absurd h (by decide)
    · exact hs1 h)]

/-- The table `{-100, 2^60}` queried at `2^60 - 128`: both differences round to `2^60`,
so the weight is `1.0`. -/
theorem sampleIntervalOn_wideTable :
    sampleIntervalOn wideTable 2 (2 ^ 60 - 128) = ⟨0, 1, .fin 1⟩ := by
  have e0 : wideTable.getSampleTime 0 = -100 := rfl
  have e1 : wideTable.getSampleTime 1 = 2 ^ 60 := rfl
  have hmax : (2 : ℚ) ^ 60 ≤ dblMax := by
    unfold dblMax
    norm_num
  have hs0 : ¬ (doubleSub (2 ^ 60 - 128) (wideTable.getSampleTime 0)).fabs.lt
      (.fin snapTolerance) = true := by
    apply not_snap_of_le
    rw [e0, abs_of_nonneg (by norm_num)]
    norm_num
  have hs1 : ¬ (doubleSub (2 ^ 60 - 128) (wideTable.getSampleTime 1)).fabs.lt
      (.fin snapTolerance) = true := by
    apply not_snap_of_le
    rw [e1, abs_of_nonpos (by norm_num)]
    norm_num
  rw [sampleIntervalOn_two wideTable _ (by rw [e0]; norm_num) (by rw [e1]; norm_num) hs0 hs1,
    e0, e1]
  have ra : roundBinary64 ((2 : ℚ) ^ 60 - 128 - -100) = 2 ^ 60 := by
    rw [roundBinary64_of_nonneg (by norm_num)]
    have := roundMagnitude_eq_of_near (a := (2 : ℚ) ^ 60 - 128 - -100) (k := 59)
      (n := 2 ^ 53) (by norm_num) (by norm_num) (by norm_num) (by norm_num) (by norm_num)
    rw [this]
    norm_num
  have rb : roundBinary64 ((2 : ℚ) ^ 60 - -100) = 2 ^ 60 := by
    rw [roundBinary64_of_nonneg (by norm_num)]
    have := roundMagnitude_eq_of_near (a := (2 : ℚ) ^ 60 - -100) (k := 60)
      (n := 2 ^ 52) (by norm_num) (by norm_num) (by norm_num) (by norm_num) (by norm_num)
    rw [this]
    norm_num
  have hneg : -dblMax ≤ (2 : ℚ) ^ 60 := by
    have := dblMax_pos
    have h60 : (0 : ℚ) ≤ 2 ^ 60 := by norm_num
    linarith
  rw [doubleSub_eq_fin ra hmax hneg, doubleSub_eq_fin rb hmax hneg]
  have h1max : (1 : ℚ) ≤ dblMax := by
    unfold dblMax
    norm_num
  have hone : roundBinary64 ((2 : ℚ) ^ 60 / 2 ^ 60) = 1 := by
    rw [div_self (by norm_num), roundBinary64_of_nonneg (by norm_num), roundMagnitude_one]
  simp only [Dbl.div, Dbl.ofRounded, hone]
  rw [if_neg (by norm_num), if_neg (not_lt.mpr h1max), if_neg (by
    have := dblMax_pos
    linarith)]

/-- The table `{-DBL_MAX, DBL_MAX}` queried at `2^1023`: both differences overflow, so
the weight is not a number. -/
theorem sampleIntervalOn_extremeTable :
    sampleIntervalOn extremeTable 2 (2 ^ 1023) = ⟨0, 1, .nan⟩ := by
  have e0 : extremeTable.getSampleTime 0 = -dblMax := rfl
  have e1 : extremeTable.getSampleTime 1 = dblMax := rfl
  have hlt : (2 : ℚ) ^ 1023 < dblMax := by
    unfold dblMax
    norm_num
  have hd := dblMax_pos
  have hs0 : ¬ (doubleSub (2 ^ 1023) (extremeTable.getSampleTime 0)).fabs.lt
      (.fin snapTolerance) = true := by
    apply not_snap_of_le
    rw [e0, abs_of_nonneg (by linarith)]
    have : (2 : ℚ) ^ (-13 : ℤ) ≤ 2 ^ 1023 := by norm_num
    linarith
  have hs1 : ¬ (doubleSub (2 ^ 1023) (extremeTable.getSampleTime 1)).fabs.lt
      (.fin snapTolerance) = true := by
    apply not_snap_of_le
    rw [e1, abs_of_nonpos (by linarith)]
    unfold dblMax
    norm_num
  rw [sampleIntervalOn_two extremeTable _ (by rw [e0]; linarith) (by rw [e1]; exact hlt) hs0 hs1,
    e0, e1]
  have ha : doubleSub (2 ^ 1023) (-dblMax) = .posInf := by
    apply doubleSub_eq_posInf
    unfold dblMax
    norm_num
  have hb : doubleSub dblMax (-dblMax) = .posInf := by
    apply doubleSub_eq_posInf
    unfold dblMax
    norm_num
  rw [ha, hb]
  rfl

/-- The table `{-5404319552844595 / 2^119, 1.0}` queried at the double just below
`0.0001`: the difference to the first time rounds up to the double `0.0001`, so
neither snap test passes and the indices are 0 and 1. -/
theorem sampleIntervalOn_nearSnapTable :
    (sampleIntervalOn nearSnapTable 2 snapTolerancePred).floorIndex = 0 ∧
      (sampleIntervalOn nearSnapTable 2 snapTolerancePred).ceilIndex = 1 := by
  have e0 : nearSnapTable.getSampleTime 0 = -(5404319552844595 / 2 ^ 119) := rfl
  have e1 : nearSnapTable.getSampleTime 1 = 1 := rfl
  have hs0 : ¬ (doubleSub snapTolerancePred (nearSnapTable.getSampleTime 0)).fabs.lt
      (.fin snapTolerance) = true := by
    rw [snap_iff, not_lt, e0, abs_of_nonneg (by unfold snapTolerancePred; norm_num)]
    have := roundMagnitude_eq_of_near
      (a := snapTolerancePred - -(5404319552844595 / 2 ^ 119)) (k := -14)
      (n := 7378697629483821) (by unfold snapTolerancePred; norm_num)
      (by unfold snapTolerancePred; norm_num) (by norm_num)
      (by unfold snapTolerancePred; norm_num) (by unfold snapTolerancePred; norm_num)
    rw [this]
    unfold snapTolerance
    norm_num
  have hs1 : ¬ (doubleSub snapTolerancePred (nearSnapTable.getSampleTime 1)).fabs.lt
      (.fin snapTolerance) = true := by
    apply not_snap_of_le
    rw [e1, abs_of_nonpos (by unfold snapTolerancePred; norm_num)]
    unfold snapTolerancePred
    norm_num
  rw [sampleIntervalOn_two nearSnapTable _ (by rw [e0]; unfold snapTolerancePred; norm_num)
    (by rw [e1]; unfold snapTolerancePred; norm_num) hs0 hs1]
  exact ⟨rfl, rfl⟩

/-! ## Time-sample resolution -/

/-- C1, as stated, fails. On the strictly increasing table `{-100, 2^60}` with the query
`2^60 - 128` both binary64 differences round to `2^60`, so `sampleInterval` returns the
weight `1.0`, which is not below 1; on the table `{-DBL_MAX, DBL_MAX}` with the query
`2^1023` both differences overflow and the weight is not a number. -/
theorem sampleInterval_weight_not_below_one :
    1 ≤ (numSamples (tableInput 2 wideTable)).1 ∧
    StrictlyIncreasing (tableOf (tableInput 2 wideTable)) (numSamples (tableInput 2 wideTable)).1 ∧
    (sampleInterval (tableInput 2 wideTable) (2 ^ 60 - 128)).1 = ⟨0, 1, .fin 1⟩ ∧
    (¬ ∃ w, (sampleInterval (tableInput 2 wideTable) (2 ^ 60 - 128)).1.weight = .fin w ∧
      0 ≤ w ∧ w < 1) ∧
    StrictlyIncreasing (tableOf (tableInput 2 extremeTable))
      (numSamples (tableInput 2 extremeTable)).1 ∧
    (sampleInterval (tableInput 2 extremeTable) (2 ^ 1023)).1 = ⟨0, 1, .nan⟩ := by
  have hv : (sampleInterval (tableInput 2 wideTable) (2 ^ 60 - 128)).1 = ⟨0, 1, .fin 1⟩ := by
    rw [sampleInterval_fst, tableInput_table, tableInput_two, sampleIntervalOn_wideTable]
  refine ⟨by rw [tableInput_two]; norm_num, ?_, hv, ?_, ?_, ?_⟩
  · rw [tableInput_table, tableInput_two]
    apply strictlyIncreasing_two
    show (-100 : ℚ) < 2 ^ 60
    norm_num
  · rintro ⟨w, hw, -, hlt⟩
    rw [hv] at hw
    cases hw
    exact absurd hlt (lt_irrefl _)
  · rw [tableInput_table, tableInput_two]
    apply strictlyIncreasing_two
    show -dblMax < dblMax
    have := dblMax_pos
    linarith
  · rw [sampleInterval_fst, tableInput_table, tableInput_two, sampleIntervalOn_extremeTable]

/-- C1, amended. On a handle whose table has strictly increasing sample times,
`sampleInterval` at any query time returns indices with `floorIndex ≤ ceilIndex` and a
weight that is a binary64 number `w` with `0 ≤ w ≤ 1`, unless the binary64 difference of
the query and the floor time overflowed, when the weight is not a number; the weight is
a number whenever the query and the sample times are at most `2 ^ 1022` in magnitude. -/
theorem sampleInterval_weight_closed_range (h : AlembicInput) (time : ℚ)
    (hmono : StrictlyIncreasing (tableOf h) (numSamples h).1) :
    (sampleInterval h time).1.floorIndex ≤ (sampleInterval h time).1.ceilIndex ∧
    (((sampleInterval h time).1.weight = .nan ∧
        dblMax < roundBinary64
          (time - (tableOf h).getSampleTime (sampleInterval h time).1.floorIndex)) ∨
      ∃ w, (sampleInterval h time).1.weight = .fin w ∧ 0 ≤ w ∧ w ≤ 1) ∧
    (|time| ≤ 2 ^ 1022 → (∀ i, |(tableOf h).getSampleTime i| ≤ 2 ^ 1022) →
      ∃ w, (sampleInterval h time).1.weight = .fin w ∧ 0 ≤ w ∧ w ≤ 1) := by
  rw [sampleInterval_fst]
  obtain ⟨hidx, hw⟩ := sampleIntervalOn_weight (tableOf h) (numSamples h).1 time hmono
  refine ⟨hidx, hw, fun ht hts => ?_⟩
  rcases hw with ⟨-, hover⟩ | hfin
  · exfalso
    have hi := hts (sampleIntervalOn (tableOf h) (numSamples h).1 time).floorIndex
    have hle : |time - (tableOf h).getSampleTime
        (sampleIntervalOn (tableOf h) (numSamples h).1 time).floorIndex| ≤ 2 ^ (1023 : ℤ) := by
      have e : (2 : ℚ) ^ (1023 : ℤ) = 2 ^ 1022 + 2 ^ 1022 := by norm_num
      rw [e]
      exact le_trans (abs_sub _ _) (add_le_add ht hi)
    have hmag : roundMagnitude |time - (tableOf h).getSampleTime
        (sampleIntervalOn (tableOf h) (numSamples h).1 time).floorIndex| ≤ 2 ^ (1023 : ℤ) := by
      rcases eq_or_lt_of_le (abs_nonneg (time - (tableOf h).getSampleTime
        (sampleIntervalOn (tableOf h) (numSamples h).1 time).floorIndex)) with h0 | hpos
      · rw [← h0, roundMagnitude_zero]
        exact le_of_lt (two_zpow_pos _)
      · exact roundMagnitude_le_two_zpow hpos hle (by norm_num)
    have hmax : (2 : ℚ) ^ (1023 : ℤ) ≤ dblMax := by
      unfold dblMax
      norm_num
    have := le_abs_self (roundBinary64 (time - (tableOf h).getSampleTime
      (sampleIntervalOn (tableOf h) (numSamples h).1 time).floorIndex))
    rw [abs_roundBinary64] at this
    linarith
  · exact hfin

/-- Witness of C1: the three-sample table queried at `1 / 16`, between samples 1 and 2. -/
theorem sampleInterval_weight_closed_range_witness :
    StrictlyIncreasing (tableOf threeSampleInput) (numSamples threeSampleInput).1 ∧
    (sampleInterval threeSampleInput (1 / 16)).1.floorIndex
      ≤ (sampleInterval threeSampleInput (1 / 16)).1.ceilIndex :=
  ⟨threeSampleInput_increasing,
   (sampleInterval_weight_closed_range threeSampleInput (1 / 16) threeSampleInput_increasing).1⟩

/-- C2. On a handle whose table is strictly increasing, for every sample index
`i < numSamples()` the call `sampleTime( i )` returns a time `t`, and `sampleInterval( t )`
(on the handle before as well as after that call) returns `floorIndex = i`,
`ceilIndex = i` and weight `0`. -/
theorem sampleInterval_at_sampleTime (h : AlembicInput) (i : Nat)
    (hi : i < (numSamples h).1)
    (hmono : StrictlyIncreasing (tableOf h) (numSamples h).1) :
    ∃ t, (sampleTime h i).1 = .ok t ∧
      (sampleInterval (sampleTime h i).2 t).1 = ⟨i, i, 0⟩ ∧
      (sampleInterval h t).1 = ⟨i, i, 0⟩ := by
  refine ⟨(tableOf h).getSampleTime i, ?_, ?_, ?_⟩
  · rw [sampleTime_fst, if_neg (by omega)]
  · rw [sampleInterval_fst, (sampleTime_snd h i).1, (sampleTime_snd h i).2]
    simp only [sampleIntervalOn, getFloorIndex_sampleTime _ _ _ hi hmono, snap_self, if_true]
  · rw [sampleInterval_fst]
    simp only [sampleIntervalOn, getFloorIndex_sampleTime _ _ _ hi hmono, snap_self, if_true]

/-- Witness of C2: sample 2 of the three-sample table. -/
theorem sampleInterval_at_sampleTime_witness :
    2 < (numSamples threeSampleInput).1 ∧
    ∃ t, (sampleTime threeSampleInput 2).1 = .ok t ∧
      (sampleInterval (sampleTime threeSampleInput 2).2 t).1 = ⟨2, 2, 0⟩ ∧
      (sampleInterval threeSampleInput t).1 = ⟨2, 2, 0⟩ :=
  ⟨by decide, sampleInterval_at_sampleTime threeSampleInput 2 (by decide)
    threeSampleInput_increasing⟩

/-- The binary64 subtraction `0.0401 - 0.04` is exact: the difference of the two doubles
has a 44-bit numerator over `2 ^ 57`, so it is itself a double and the machine computes
the value of the embedding; it lies below the double `0.0001`. -/
theorem dbl_0_0401_sub_dbl_0_04 :
    dbl_0_0401 - dbl_0_04 = 14411518807585 / 2 ^ 57 ∧ (14411518807585 : ℕ) < 2 ^ 44 ∧
      |dbl_0_0401 - dbl_0_04| < snapTolerance := by
  unfold dbl_0_0401 dbl_0_04 snapTolerance
  refine ⟨by norm_num, by norm_num, ?_⟩
  rw [abs_lt]
  constructor <;> norm_num

/-- The binary64 difference `0.0401 - 0.04` is the exact difference and passes the snap
test. -/
theorem snap_dbl_0_0401 : (doubleSub dbl_0_0401 dbl_0_04).fabs.lt (.fin snapTolerance) = true := by
  obtain ⟨hval, -, hlt⟩ := dbl_0_0401_sub_dbl_0_04
  rw [snap_iff]
  have hfix := roundMagnitude_of_representable 14411518807585 (-57) (by norm_num) (by norm_num)
  have e : ((14411518807585 : ℕ) : ℚ) * 2 ^ (-57 : ℤ) = |dbl_0_0401 - dbl_0_04| := by
    rw [hval, abs_of_nonneg (by norm_num)]
    norm_num
  rw [e] at hfix
  rw [hfix]
  exact hlt

/-- C3. On a handle with three samples at times `0.0`, `0.04` and `0.08` (the binary64
numbers these literals denote), `sampleInterval( 0.0401 )` returns `floorIndex = 1`,
`ceilIndex = 1` and weight `0`: the difference `0.0401 - 0.04` of the two doubles is
`9.999999999999593e-05`, below the tolerance `0.0001`, so the query snaps to sample 1
and is not interpolated. -/
theorem sampleInterval_scenario (h : AlembicInput)
    (hn : (numSamples h).1 = 3)
    (h0 : (tableOf h).getSampleTime 0 = 0)
    (h1 : (tableOf h).getSampleTime 1 = dbl_0_04)
    (h2 : (tableOf h).getSampleTime 2 = dbl_0_08) :
    (sampleInterval h dbl_0_0401).1 = ⟨1, 1, 0⟩ ∧
      ∀ w, (sampleInterval h dbl_0_0401).1 ≠ ⟨1, 2, w⟩ := by
  have _ := h0
  have hval : (sampleInterval h dbl_0_0401).1 = ⟨1, 1, 0⟩ := by
    rw [sampleInterval_fst, hn]
    have hnot : ¬ dbl_0_08 ≤ dbl_0_0401 := by
      unfold dbl_0_08 dbl_0_0401
      norm_num
    have hle : dbl_0_04 ≤ dbl_0_0401 := by
      unfold dbl_0_04 dbl_0_0401
      norm_num
    simp only [sampleIntervalOn, TimeSampling.getFloorIndex, TimeSampling.lastAtMost, h2, h1,
      hnot, hle, if_false, if_true, Option.getD_some, snap_dbl_0_0401]
  refine ⟨hval, fun w hcon => ?_⟩
  rw [hval] at hcon
  have := congrArg SampleInterval.ceilIndex hcon
  simp at this

/-- Witness of C3: the root handle of the three-sample archive. -/
theorem sampleInterval_scenario_witness :
    (numSamples threeSampleInput).1 = 3 ∧
    (sampleInterval threeSampleInput dbl_0_0401).1 = ⟨1, 1, 0⟩ ∧
      ∀ w, (sampleInterval threeSampleInput dbl_0_0401).1 ≠ ⟨1, 2, w⟩ :=
  ⟨by decide, sampleInterval_scenario threeSampleInput (by decide) rfl rfl rfl⟩

/-- C4, as stated, fails. On the table `{-5404319552844595 / 2^119, 1.0}` with the query
`nextafter( 0.0001, 0 )` the exact distance to the floor time is below `1e-4`, so the
three-case reference in exact numbers snaps to `(0, 0, 0.0)`; the binary64 difference
rounds up to the double `0.0001`, so `sampleInterval` returns the indices 0 and 1. -/
theorem sampleInterval_not_exact_reference :
    sampleIntervalSpec (tableOf (tableInput 2 nearSnapTable))
      (numSamples (tableInput 2 nearSnapTable)).1 snapTolerancePred = ⟨0, 0, 0⟩ ∧
    (sampleInterval (tableInput 2 nearSnapTable) snapTolerancePred).1.floorIndex = 0 ∧
    (sampleInterval (tableInput 2 nearSnapTable) snapTolerancePred).1.ceilIndex = 1 ∧
    (sampleInterval (tableInput 2 nearSnapTable) snapTolerancePred).1 ≠
      sampleIntervalSpec (tableOf (tableInput 2 nearSnapTable))
        (numSamples (tableInput 2 nearSnapTable)).1 snapTolerancePred := by
  have e0 : nearSnapTable.getSampleTime 0 = -(5404319552844595 / 2 ^ 119) := rfl
  have e1 : nearSnapTable.getSampleTime 1 = 1 := rfl
  obtain ⟨hf, -⟩ := candidates_two nearSnapTable snapTolerancePred
    (by rw [e0]; unfold snapTolerancePred; norm_num)
    (by rw [e1]; unfold snapTolerancePred; norm_num)
  have hspec : sampleIntervalSpec (tableOf (tableInput 2 nearSnapTable))
      (numSamples (tableInput 2 nearSnapTable)).1 snapTolerancePred = ⟨0, 0, 0⟩ := by
    rw [tableInput_table, tableInput_two]
    have hlt : |snapTolerancePred - nearSnapTable.getSampleTime 0| < 1 / 10000 := by
      rw [e0, abs_of_nonneg (by unfold snapTolerancePred; norm_num)]
      unfold snapTolerancePred
      norm_num
    simp only [sampleIntervalSpec, hf, hlt, if_true]
  have hcode : (sampleInterval (tableInput 2 nearSnapTable) snapTolerancePred).1.floorIndex = 0 ∧
      (sampleInterval (tableInput 2 nearSnapTable) snapTolerancePred).1.ceilIndex = 1 := by
    rw [sampleInterval_fst, tableInput_table, tableInput_two]
    exact sampleIntervalOn_nearSnapTable
  refine ⟨hspec, hcode.1, hcode.2, fun hcon => ?_⟩
  have hc := congrArg SampleInterval.ceilIndex hcon
  rw [hcode.2, hspec] at hc
  exact absurd hc (by decide)

/-- C4, amended. The result of `sampleInterval` is the three-case reference definition
for every query time `t` when the two differences and the quotient are taken as the
binary64 results: with `floor` and `ceil` the floor and ceil entries of the handle's
table, a binary64 difference `t - floor.time` of magnitude below `1e-4` gives
`(floor.index, floor.index, 0)`; otherwise equal indices or a binary64 difference
`t - ceil.time` of magnitude below `1e-4` give `(ceil.index, ceil.index, 0)`; otherwise the
result is `(floor.index, ceil.index, w)` with `w` the binary64 quotient of the binary64
differences `t - floor.time` and `ceil.time - floor.time`. The floor snap has priority:
it is the result whenever the floor lies within the tolerance, also when the ceil does
too. With at least one sample, `floor` is the greatest entry at or below `t` (entry 0
when there is none) and `ceil` the smallest entry at or above `t` (the last entry when
there is none). -/
theorem sampleInterval_three_cases_binary64 (h : AlembicInput) (t : ℚ) :
    (sampleInterval h t).1 = sampleIntervalSpecBinary64 (tableOf h) (numSamples h).1 t ∧
    ((doubleSub t ((tableOf h).getFloorIndex t (numSamples h).1).2).fabs.lt
        (.fin (1 / 10000)) = true →
      (sampleInterval h t).1 =
        ⟨((tableOf h).getFloorIndex t (numSamples h).1).1,
         ((tableOf h).getFloorIndex t (numSamples h).1).1, 0⟩) ∧
    (¬ (doubleSub t ((tableOf h).getFloorIndex t (numSamples h).1).2).fabs.lt
        (.fin (1 / 10000)) = true →
      (((tableOf h).getFloorIndex t (numSamples h).1).1
          = ((tableOf h).getCeilIndex t (numSamples h).1).1 ∨
        (doubleSub t ((tableOf h).getCeilIndex t (numSamples h).1).2).fabs.lt
          (.fin (1 / 10000)) = true) →
      (sampleInterval h t).1 =
        ⟨((tableOf h).getCeilIndex t (numSamples h).1).1,
         ((tableOf h).getCeilIndex t (numSamples h).1).1, 0⟩) ∧
    (¬ (doubleSub t ((tableOf h).getFloorIndex t (numSamples h).1).2).fabs.lt
        (.fin (1 / 10000)) = true →
      ¬ (((tableOf h).getFloorIndex t (numSamples h).1).1
          = ((tableOf h).getCeilIndex t (numSamples h).1).1 ∨
        (doubleSub t ((tableOf h).getCeilIndex t (numSamples h).1).2).fabs.lt
          (.fin (1 / 10000)) = true) →
      (sampleInterval h t).1 =
        ⟨((tableOf h).getFloorIndex t (numSamples h).1).1,
         ((tableOf h).getCeilIndex t (numSamples h).1).1,
         (doubleSub t ((tableOf h).getFloorIndex t (numSamples h).1).2).div
           (doubleSub ((tableOf h).getCeilIndex t (numSamples h).1).2
             ((tableOf h).getFloorIndex t (numSamples h).1).2)⟩) ∧
    (1 ≤ (numSamples h).1 →
      ((∃ i, i < (numSamples h).1 ∧ (tableOf h).getSampleTime i ≤ t) →
        (tableOf h).getSampleTime ((tableOf h).getFloorIndex t (numSamples h).1).1 ≤ t ∧
        ∀ j, j < (numSamples h).1 → (tableOf h).getSampleTime j ≤ t →
          j ≤ ((tableOf h).getFloorIndex t (numSamples h).1).1) ∧
      ((¬ ∃ i, i < (numSamples h).1 ∧ (tableOf h).getSampleTime i ≤ t) →
        ((tableOf h).getFloorIndex t (numSamples h).1).1 = 0) ∧
      ((∃ i, i < (numSamples h).1 ∧ t ≤ (tableOf h).getSampleTime i) →
        t ≤ (tableOf h).getSampleTime ((tableOf h).getCeilIndex t (numSamples h).1).1 ∧
        ∀ j, j < (numSamples h).1 → t ≤ (tableOf h).getSampleTime j →
          ((tableOf h).getCeilIndex t (numSamples h).1).1 ≤ j) ∧
      ((¬ ∃ i, i < (numSamples h).1 ∧ t ≤ (tableOf h).getSampleTime i) →
        ((tableOf h).getCeilIndex t (numSamples h).1).1 = (numSamples h).1 - 1)) := by
  have heq : (sampleInterval h t).1
      = sampleIntervalSpecBinary64 (tableOf h) (numSamples h).1 t := by
    rw [sampleInterval_fst]
    simp only [sampleIntervalOn, sampleIntervalSpecBinary64, snap_eq_spec]
  refine ⟨heq, fun hs => ?_, fun hs hc => ?_, fun hs hc => ?_, fun hn => ?_⟩
  · rw [heq]
    simp only [sampleIntervalSpecBinary64, hs, if_true]
  · rw [heq]
    simp only [sampleIntervalSpecBinary64]
    rw [if_neg hs, if_pos hc]
  · rw [heq]
    simp only [sampleIntervalSpecBinary64]
    rw [if_neg hs, if_neg hc]
  · obtain ⟨-, -, f3, f4⟩ := getFloorIndex_spec (tableOf h) t _ hn
    obtain ⟨-, -, c3, c4⟩ := getCeilIndex_spec (tableOf h) t _ hn
    exact ⟨f3, f4, c3, c4⟩

/-- Witness of C4: the three-sample table queried at sample 1's own time, where the floor
snap applies. -/
theorem sampleInterval_three_cases_binary64_witness :
    (doubleSub dbl_0_04 ((tableOf threeSampleInput).getFloorIndex dbl_0_04
        (numSamples threeSampleInput).1).2).fabs.lt (.fin (1 / 10000)) = true ∧
    (sampleInterval threeSampleInput dbl_0_04).1 =
      ⟨((tableOf threeSampleInput).getFloorIndex dbl_0_04 (numSamples threeSampleInput).1).1,
       ((tableOf threeSampleInput).getFloorIndex dbl_0_04 (numSamples threeSampleInput).1).1,
       0⟩ := by
  have hfl : (tableOf threeSampleInput).getFloorIndex dbl_0_04 (numSamples threeSampleInput).1
      = (1, dbl_0_04) :=
    getFloorIndex_sampleTime (tableOf threeSampleInput) _ 1 (by decide)
      threeSampleInput_increasing
  have hs : (doubleSub dbl_0_04 ((tableOf threeSampleInput).getFloorIndex dbl_0_04
      (numSamples threeSampleInput).1).2).fabs.lt (.fin (1 / 10000)) = true := by
    rw [hfl, ← snap_eq_spec]
    exact snap_self _
  exact ⟨hs, (sampleInterval_three_cases_binary64 threeSampleInput dbl_0_04).2.1 hs⟩

/-- C5. The call `sampleTime( index )` fails exactly when `index ≥ numSamples()`, and then
with the exception "Sample index out of range"; in particular
`sampleTime( numSamples() )` fails; for `index < numSamples()` it returns the time the
handle's table records for that index, which on a handle whose cached table agrees with
the backend is the time in the backend's table of the node's schema. -/
theorem sampleTime_outOfRange_iff (h : AlembicInput) (index : Nat) :
    ((∃ e, (sampleTime h index).1 = .error e) ↔ index ≥ (numSamples h).1) ∧
    (index ≥ (numSamples h).1 →
      (sampleTime h index).1 = .error (.invalidArgument "Sample index out of range")) ∧
    (sampleTime h (numSamples h).1).1
      = .error (.invalidArgument "Sample index out of range") ∧
    (index < (numSamples h).1 →
      (sampleTime h index).1 = .ok ((tableOf h).getSampleTime index) ∧
      (TimeCacheOk h →
        (sampleTime h index).1 = .ok (h.object.schemaTimeSampling.getSampleTime index))) := by
  refine ⟨⟨?_, ?_⟩, ?_, ?_, ?_⟩
  · rintro ⟨e, he⟩
    by_contra hlt
    rw [sampleTime_fst, if_neg hlt] at he
    cases he
  · intro hge
    exact ⟨_, by rw [sampleTime_fst, if_pos hge]⟩
  · intro hge
    rw [sampleTime_fst, if_pos hge]
  · rw [sampleTime_fst, if_pos (le_refl _)]
  · intro hlt
    have e : (sampleTime h index).1 = .ok ((tableOf h).getSampleTime index) := by
      rw [sampleTime_fst, if_neg (by omega)]
    exact ⟨e, fun hc => by rw [e, tableOf_eq_schema h hc]⟩

/-- Witness of C5: index 3 fails and index 1 returns `0.04` on the three-sample table. -/
theorem sampleTime_outOfRange_iff_witness :
    (sampleTime threeSampleInput 3).1
      = .error (.invalidArgument "Sample index out of range") ∧
    (sampleTime threeSampleInput 1).1 = .ok dbl_0_04 :=
  ⟨(sampleTime_outOfRange_iff threeSampleInput 3).2.1 (by decide),
   ((sampleTime_outOfRange_iff threeSampleInput 1).2.2.2 (by decide)).2
     (timeCacheOk_init _ _)⟩

/-! ## Lemmas on the bound -/

theorem computeBound_mk (archive : IArchive) (hasParent : Bool) (p : ObjectProps)
    (cs : List ObjectReader) :
    computeBound archive hasParent (.mk p cs) =
      if !hasParent then archive.archiveBounds
      else if p.xformMatches then
        if p.xformChildBounds.isEmpty then extendByChildren archive p.xformChildBounds cs
        else p.xformChildBounds
      else p.geomSelfBounds :=
  rfl

theorem extendByChildren_nil (archive : IArchive) (acc : Box3d) :
    extendByChildren archive acc [] = acc :=
  rfl

theorem extendByChildren_cons (archive : IArchive) (acc : Box3d) (c : ObjectReader)
    (cs : List ObjectReader) :
    extendByChildren archive acc (c :: cs) =
      extendByChildren archive
        (acc.extendBy (transformBox (computeBound archive true c)
          (transform (DataMembers.init archive ⟨true, c⟩)))) cs :=
  rfl

theorem computeBound_eq (archive : IArchive) (hasParent : Bool) (r : ObjectReader) :
    computeBound archive hasParent r =
      if !hasParent then archive.archiveBounds
      else if r.props.xformMatches then
        if r.props.xformChildBounds.isEmpty then
          extendByChildren archive r.props.xformChildBounds r.children
        else r.props.xformChildBounds
      else r.props.geomSelfBounds := by
  cases r with
  | mk p cs => exact computeBound_mk archive hasParent p cs

theorem bound_fst (h : AlembicInput) :
    (bound h).1 =
      if h.boundValid then h.bound
      else computeBound h.archive h.object.hasParent h.object.reader := by
  unfold bound
  split_ifs <;> rfl

theorem bound_of_cacheOk (h : AlembicInput) (hc : BoundCacheOk h) :
    (bound h).1 = computeBound h.archive h.object.hasParent h.object.reader := by
  rw [bound_fst]
  split_ifs with hv
  · exact hc hv
  · rfl

theorem boundCacheOk_init (archive : IArchive) (object : IObject) :
    BoundCacheOk (DataMembers.init archive object) := by
  intro hv
  cases hv

theorem boundCacheOk_bound (h : AlembicInput) (hc : BoundCacheOk h) :
    BoundCacheOk (bound h).2 := by
  unfold bound
  split_ifs with hv
  · exact hc
  · intro _
    rfl

theorem bound_init (archive : IArchive) (object : IObject) :
    (bound (DataMembers.init archive object)).1
      = computeBound archive object.hasParent object.reader :=
  bound_of_cacheOk _ (boundCacheOk_init archive object)

/-- The loop over the children as a fold over the child handles: each child handle's
`bound()`, transformed by its `transform()`, extends the accumulated box. -/
theorem extendByChildren_eq_foldl (archive : IArchive) :
    ∀ (cs : List ObjectReader) (acc : Box3d),
      extendByChildren archive acc cs =
        (cs.map (fun r =>
          transformBox (bound (DataMembers.init archive ⟨true, r⟩)).1
            (transform (DataMembers.init archive ⟨true, r⟩)))).foldl Box3d.extendBy acc
  | [], acc => by rw [extendByChildren_nil]; rfl
  | c :: cs, acc => by
    rw [extendByChildren_cons, extendByChildren_eq_foldl archive cs, List.map_cons,
      List.foldl_cons, bound_init]

/-- The handle `child( i )` is the `i`-th of `childHandles`. -/
theorem child_eq_childHandles (h : AlembicInput) (i : Nat) :
    child h i = match (childHandles h)[i]? with
      | some c => .ok c
      | none => .error .backendOutOfRange := by
  unfold child childHandles IObject.getChild
  rw [List.getElem?_map]
  cases h.object.reader.children[i]? <;> rfl

theorem childHandles_length (h : AlembicInput) : (childHandles h).length = numChildren h := by
  unfold childHandles numChildren IObject.getNumChildren
  rw [List.length_map]

/-- The fallback of `bound` on a Transform node whose stored child bounds are empty: the
stored box extended, child after child, by the child's bound transformed by the child's
transform. -/
theorem bound_transform_fallback (h : AlembicInput) (hc : BoundCacheOk h)
    (hp : h.object.hasParent = true) (hx : h.object.reader.props.xformMatches = true)
    (he : h.object.reader.props.xformChildBounds.isEmpty = true) :
    (bound h).1 =
      ((childHandles h).map (fun c => transformBox (bound c).1 (transform c))).foldl
        Box3d.extendBy h.object.reader.props.xformChildBounds := by
  rw [bound_of_cacheOk h hc, computeBound_eq, hp, hx, he, extendByChildren_eq_foldl]
  simp only [Bool.not_true, if_true, childHandles, List.map_map]
  rfl

/-- When the stored child bounds are the default empty box, the fallback of `bound` is the
union of the children's transformed bounds. -/
theorem bound_transform_union (h : AlembicInput) (hc : BoundCacheOk h)
    (hp : h.object.hasParent = true) (hx : h.object.reader.props.xformMatches = true)
    (he : h.object.reader.props.xformChildBounds = Box3d.makeEmpty) :
    (bound h).1 =
      unionOfBoxes ((childHandles h).map (fun c => transformBox (bound c).1 (transform c))) := by
  have hempty : h.object.reader.props.xformChildBounds.isEmpty = true := by
    rw [he]
    simp only [Box3d.isEmpty, Box3d.makeEmpty, dblMax]
    norm_num
  rw [bound_transform_fallback h hc hp hx hempty, he]
  rfl

/-! ## The cache invariants along the operations -/

theorem ensureTimeSampling_fields (h : AlembicInput) :
    (ensureTimeSampling h).archive = h.archive ∧ (ensureTimeSampling h).object = h.object ∧
      (ensureTimeSampling h).boundValid = h.boundValid ∧ (ensureTimeSampling h).bound = h.bound := by
  unfold ensureTimeSampling
  split
  · exact ⟨rfl, rfl, rfl, rfl⟩
  · split_ifs <;> exact ⟨rfl, rfl, rfl, rfl⟩

theorem boundCacheOk_congr (h k : AlembicInput) (ha : k.archive = h.archive)
    (ho : k.object = h.object) (hv : k.boundValid = h.boundValid) (hb : k.bound = h.bound)
    (hc : BoundCacheOk h) : BoundCacheOk k := by
  unfold BoundCacheOk at hc ⊢
  rw [ha, ho, hv, hb]
  exact hc

theorem boundCacheOk_numSamples (h : AlembicInput) (hc : BoundCacheOk h) :
    BoundCacheOk (numSamples h).2 :=
  boundCacheOk_congr h _ (numSamples_snd_fields h).2.2.1 (numSamples_snd_fields h).2.1
    (numSamples_snd_fields h).2.2.2.1 (numSamples_snd_fields h).2.2.2.2 hc

theorem boundCacheOk_ensureTimeSampling (h : AlembicInput) (hc : BoundCacheOk h) :
    BoundCacheOk (ensureTimeSampling h) :=
  boundCacheOk_congr h _ (ensureTimeSampling_fields h).1 (ensureTimeSampling_fields h).2.1
    (ensureTimeSampling_fields h).2.2.1 (ensureTimeSampling_fields h).2.2.2 hc

theorem boundCacheOk_sampleTime (h : AlembicInput) (i : Nat) (hc : BoundCacheOk h) :
    BoundCacheOk (sampleTime h i).2 := by
  simp only [sampleTime]
  split_ifs
  · exact boundCacheOk_numSamples h hc
  · exact boundCacheOk_ensureTimeSampling _ (boundCacheOk_numSamples h hc)

theorem boundCacheOk_sampleInterval (h : AlembicInput) (t : ℚ) (hc : BoundCacheOk h) :
    BoundCacheOk (sampleInterval h t).2 := by
  have h1 := boundCacheOk_numSamples _ (boundCacheOk_ensureTimeSampling h hc)
  have h2 := boundCacheOk_numSamples _ h1
  simp only [sampleInterval]
  split_ifs
  · exact h1
  · exact h2
  · exact h2

theorem timeCacheOk_ensureTimeSampling (h : AlembicInput) (hc : TimeCacheOk h) :
    TimeCacheOk (ensureTimeSampling h) := by
  intro ts hts
  rw [ensureTimeSampling_isSome] at hts
  cases hts
  rw [(ensureTimeSampling_numSamples h).2]
  exact tableOf_eq_schema h hc

theorem timeCacheOk_numSamples (h : AlembicInput) (hc : TimeCacheOk h) :
    TimeCacheOk (numSamples h).2 := by
  intro ts hts
  rw [(numSamples_snd_fields h).1] at hts
  rw [(numSamples_snd_fields h).2.1]
  exact hc ts hts

theorem timeCacheOk_bound (h : AlembicInput) (hc : TimeCacheOk h) :
    TimeCacheOk (bound h).2 := by
  unfold bound
  split_ifs
  · exact hc
  · exact hc

/-! ## Lemmas for the scenario archives -/

theorem extendBy_makeEmpty (b : Box3d) (hx : b.min.x < dblMax) (hy : b.min.y < dblMax)
    (hz : b.min.z < dblMax) (hx2 : -dblMax < b.max.x) (hy2 : -dblMax < b.max.y)
    (hz2 : -dblMax < b.max.z) : Box3d.makeEmpty.extendBy b = b := by
  simp only [Box3d.extendBy, Box3d.makeEmpty, hx, hy, hz, gt_iff_lt, hx2, hy2, hz2, if_true]

theorem dblMax_gt : (2 : ℚ) ^ 1000 < dblMax := by
  unfold dblMax
  norm_num

/-- The affine case of `transformBox` under the identity matrix returns the box. -/
theorem transformBox_identity (b : Box3d) (hx : b.min.x ≤ b.max.x) (hy : b.min.y ≤ b.max.y)
    (hz : b.min.z ≤ b.max.z) : transformBox b {} = b := by
  have he : b.isEmpty = false := by
    simp only [Box3d.isEmpty, Bool.or_eq_false_iff, decide_eq_false_iff_not, not_lt]
    exact ⟨⟨hx, hy⟩, hz⟩
  have step1 : ∀ (acc : ℚ × ℚ) (lo hi : ℚ), lo ≤ hi → affineStep acc 1 lo hi
      = (acc.1 + lo, acc.2 + hi) := by
    intro acc lo hi hle
    simp only [affineStep, one_mul]
    split_ifs with hlt
    · rfl
    · have : lo = hi := le_antisymm hle (not_lt.mp hlt)
      rw [this]
  have step0 : ∀ (acc : ℚ × ℚ) (lo hi : ℚ), affineStep acc 0 lo hi = acc := by
    intro acc lo hi
    simp only [affineStep, zero_mul, lt_self_iff_false, if_false, add_zero]
  simp only [transformBox, he, Bool.false_eq_true, if_false, and_self, if_true, affineAxis,
    step1 _ _ _ hx, step1 _ _ _ hy, step1 _ _ _ hz, step0, zero_add]

theorem bound_invertedG :
    (bound (DataMembers.init invertedArchive ⟨true, invertedG⟩)).1 = ⟨⟨1, 1, 1⟩, ⟨2, 2, 2⟩⟩ := by
  rw [bound_init]
  rfl

theorem transform_invertedG :
    transform (DataMembers.init invertedArchive ⟨true, invertedG⟩) = {} :=
  rfl

theorem transformed_invertedG :
    transformBox (bound (DataMembers.init invertedArchive ⟨true, invertedG⟩)).1
      (transform (DataMembers.init invertedArchive ⟨true, invertedG⟩))
      = ⟨⟨1, 1, 1⟩, ⟨2, 2, 2⟩⟩ := by
  rw [bound_invertedG, transform_invertedG]
  exact transformBox_identity _ (by norm_num) (by norm_num) (by norm_num)

/-! ## Bound resolution -/

/-- C6, evaluated at a Transform node whose stored child bounds are empty without being
the default empty box: the node "T" of `invertedArchive` stores `[(0,0,0),(-1,-1,-1)]`
and has one child with bound `[(1,1,1),(2,2,2)]` and identity transform. The loop of
`bound` extends the stored box, so `bound()` is `[(0,0,0),(2,2,2)]`, while the union of
the children's transformed bounds is `[(1,1,1),(2,2,2)]`. -/
theorem bound_inverted_stored_box :
    child (AlembicInput.ofArchive invertedArchive) 0 = .ok invertedInput ∧
      invertedInput.object.hasParent = true ∧
      invertedInput.object.reader.props.xformMatches = true ∧
      invertedInput.object.reader.props.xformChildBounds.isEmpty = true ∧
      (bound invertedInput).1 = ⟨⟨0, 0, 0⟩, ⟨2, 2, 2⟩⟩ ∧
      unionOfBoxes ((childHandles invertedInput).map
          (fun c => transformBox (bound c).1 (transform c)))
        = ⟨⟨1, 1, 1⟩, ⟨2, 2, 2⟩⟩ ∧
      (bound invertedInput).1 ≠
        unionOfBoxes ((childHandles invertedInput).map
          (fun c => transformBox (bound c).1 (transform c))) := by
  have hempty : invertedInput.object.reader.props.xformChildBounds.isEmpty = true := by
    show invertedBox.isEmpty = true
    simp only [Box3d.isEmpty, invertedBox]
    norm_num
  have hkids : (childHandles invertedInput).map
      (fun c => transformBox (bound c).1 (transform c)) = [⟨⟨1, 1, 1⟩, ⟨2, 2, 2⟩⟩] := by
    show [transformBox (bound (DataMembers.init invertedArchive ⟨true, invertedG⟩)).1
      (transform (DataMembers.init invertedArchive ⟨true, invertedG⟩))] = _
    rw [transformed_invertedG]
  have hb : (bound invertedInput).1 = ⟨⟨0, 0, 0⟩, ⟨2, 2, 2⟩⟩ := by
    rw [bound_transform_fallback invertedInput (boundCacheOk_init _ _) rfl rfl hempty, hkids]
    show Box3d.extendBy invertedBox ⟨⟨1, 1, 1⟩, ⟨2, 2, 2⟩⟩ = _
    simp only [Box3d.extendBy, invertedBox]
    norm_num
  have hu : unionOfBoxes ((childHandles invertedInput).map
      (fun c => transformBox (bound c).1 (transform c))) = ⟨⟨1, 1, 1⟩, ⟨2, 2, 2⟩⟩ := by
    rw [hkids]
    show Box3d.makeEmpty.extendBy ⟨⟨1, 1, 1⟩, ⟨2, 2, 2⟩⟩ = _
    have hbig := dblMax_gt
    have hbig2 : (2 : ℚ) < 2 ^ 1000 := by norm_num
    apply extendBy_makeEmpty <;> simp only <;> linarith
  refine ⟨rfl, rfl, rfl, hempty, hb, hu, ?_⟩
  rw [hb, hu]
  decide

theorem bound_scenarioB :
    (bound (DataMembers.init scenarioArchive ⟨true, scenarioB⟩)).1 = unitBox := by
  rw [bound_init]
  rfl

theorem transformed_scenarioB :
    transformBox (bound (DataMembers.init scenarioArchive ⟨true, scenarioB⟩)).1
      (transform (DataMembers.init scenarioArchive ⟨true, scenarioB⟩)) = unitBox := by
  rw [bound_scenarioB]
  show transformBox unitBox {} = unitBox
  exact transformBox_identity _ (by simp [unitBox]) (by simp [unitBox]) (by simp [unitBox])

/-- The bound of the node "A" of the scenario is the unit box. -/
theorem bound_scenarioInputA : (bound scenarioInputA).1 = unitBox := by
  have hkids : (childHandles scenarioInputA).map
      (fun c => transformBox (bound c).1 (transform c)) = [unitBox] := by
    show [transformBox (bound (DataMembers.init scenarioArchive ⟨true, scenarioB⟩)).1
      (transform (DataMembers.init scenarioArchive ⟨true, scenarioB⟩))] = _
    rw [transformed_scenarioB]
  rw [bound_transform_union scenarioInputA (boundCacheOk_init _ _) rfl rfl rfl, hkids]
  show Box3d.makeEmpty.extendBy unitBox = unitBox
  have hbig := dblMax_gt
  have hbig2 : (2 : ℚ) < 2 ^ 1000 := by norm_num
  apply extendBy_makeEmpty <;> simp only [unitBox] <;> linarith

/-- C7, as stated, fails: in the scenario archive `root.child( "A" ).bound()` is not the
translated box `[(5,0,0),(6,1,1)]`. -/
theorem scenario_bound_not_translated :
    ¬ ∃ a, childByName scenarioRoot "A" = .ok a ∧ (bound a).1 = ⟨⟨5, 0, 0⟩, ⟨6, 1, 1⟩⟩ := by
  rintro ⟨a, ha, hb⟩
  have hA : childByName scenarioRoot "A" = .ok scenarioInputA := rfl
  rw [hA] at ha
  cases ha
  rw [bound_scenarioInputA] at hb
  revert hb
  decide

/-- C7, amended: in the scenario archive `root.child( "A" ).bound()` is the box
`[(0,0,0),(1,1,1)]`, the bound of "B" under the identity transform of "B"; the matrix
`translate(5,0,0)` of "A" is not applied to the bound of "A" itself, and transforming
that bound by `transform()` of "A", as a parent's fallback does, gives
`[(5,0,0),(6,1,1)]`. -/
theorem scenario_bound_child_A :
    ∃ a, childByName scenarioRoot "A" = .ok a ∧ (bound a).1 = ⟨⟨0, 0, 0⟩, ⟨1, 1, 1⟩⟩ ∧
      transform a = translate5 ∧
      transformBox (bound a).1 (transform a) = ⟨⟨5, 0, 0⟩, ⟨6, 1, 1⟩⟩ := by
  refine ⟨scenarioInputA, rfl, bound_scenarioInputA, rfl, ?_⟩
  rw [bound_scenarioInputA]
  show transformBox unitBox translate5 = _
  simp only [transformBox, Box3d.isEmpty, unitBox, translate5, affineAxis, affineStep]
  norm_num

/-- C8. On every root handle (no parent) whose cache agrees with the backend, `bound()` is
the archive bounds of the backend, whatever the object's record and children are: two
root handles of archives with the same archive bounds have the same bound; with archive
bounds `[(-1,-1,-1),(1,1,1)]` the result is that box. -/
theorem bound_root (h : AlembicInput) (hc : BoundCacheOk h)
    (hp : h.object.hasParent = false) :
    (bound h).1 = h.archive.archiveBounds ∧
    (∀ k : AlembicInput, BoundCacheOk k → k.object.hasParent = false →
      k.archive.archiveBounds = h.archive.archiveBounds → (bound k).1 = (bound h).1) ∧
    (h.archive.archiveBounds = ⟨⟨-1, -1, -1⟩, ⟨1, 1, 1⟩⟩ →
      (bound h).1 = ⟨⟨-1, -1, -1⟩, ⟨1, 1, 1⟩⟩) := by
  have key : ∀ k : AlembicInput, BoundCacheOk k → k.object.hasParent = false →
      (bound k).1 = k.archive.archiveBounds := by
    intro k hk hkp
    rw [bound_of_cacheOk k hk, computeBound_eq, hkp]
    rfl
  refine ⟨key h hc hp, fun k hk hkp hka => ?_, fun hb => ?_⟩
  · rw [key k hk hkp, key h hc hp, hka]
  · rw [key h hc hp, hb]

/-- Witness of C8: the root of the scenario archive, which has the child "A". -/
theorem bound_root_witness :
    scenarioRoot.object.hasParent = false ∧
      (bound scenarioRoot).1 = ⟨⟨-1, -1, -1⟩, ⟨1, 1, 1⟩⟩ :=
  ⟨rfl, (bound_root scenarioRoot (boundCacheOk_init _ _) rfl).2.2 rfl⟩

/-- C9. On a non-root handle whose cache agrees with the backend: when the metadata
matches the transform schema and the stored child bounds are not empty, `bound()` is
that stored box, also with any other list of children under the same record; when the
metadata does not match (a GeometryBase node), `bound()` is the stored self bounds. -/
theorem bound_stored (h : AlembicInput) (hc : BoundCacheOk h)
    (hp : h.object.hasParent = true) :
    (h.object.reader.props.xformMatches = true →
      h.object.reader.props.xformChildBounds.isEmpty = false →
      (bound h).1 = h.object.reader.props.xformChildBounds ∧
      ∀ cs : List ObjectReader,
        (bound (DataMembers.init h.archive ⟨true, .mk h.object.reader.props cs⟩)).1
          = h.object.reader.props.xformChildBounds) ∧
    (h.object.reader.props.xformMatches = false →
      (bound h).1 = h.object.reader.props.geomSelfBounds) := by
  constructor
  · intro hx he
    constructor
    · rw [bound_of_cacheOk h hc, computeBound_eq, hp, hx, he]
      rfl
    · intro cs
      rw [bound_init, computeBound_mk, hx, he]
      rfl
  · intro hx
    rw [bound_of_cacheOk h hc, computeBound_eq, hp, hx]
    rfl

/-- A Transform object that stores the child bounds `[(0,0,0),(1,1,1)]` above a child
whose bound is `[(1,1,1),(2,2,2)]`. -/
theorem bound_stored_witness :
    (bound (DataMembers.init invertedArchive
      ⟨true, .mk { ObjectProps.blank "S" with
                   xformMatches := true, xformChildBounds := unitBox } [invertedG]⟩)).1
      = unitBox ∧
    (bound (DataMembers.init invertedArchive ⟨true, invertedG⟩)).1
      = ⟨⟨1, 1, 1⟩, ⟨2, 2, 2⟩⟩ :=
  ⟨((bound_stored (DataMembers.init invertedArchive
      ⟨true, .mk { ObjectProps.blank "S" with
                   xformMatches := true, xformChildBounds := unitBox } [invertedG]⟩)
      (boundCacheOk_init _ _) rfl).1 rfl (by
        show unitBox.isEmpty = false
        simp [Box3d.isEmpty, unitBox])).1,
   (bound_stored (DataMembers.init invertedArchive ⟨true, invertedG⟩)
      (boundCacheOk_init _ _) rfl).2 rfl⟩

/-- C10. For every handle, `bound()` leaves the cached bound marked valid and holding the
returned box; a second call returns the same box and leaves the members as they are; and
it does so whatever archive and object the members then refer to, so neither the backend
nor the children are consulted again. -/
theorem bound_twice (h : AlembicInput) :
    (bound h).2.boundValid = true ∧ (bound h).2.bound = (bound h).1 ∧
    bound (bound h).2 = ((bound h).1, (bound h).2) ∧
    ∀ (archive : IArchive) (object : IObject),
      (bound { (bound h).2 with archive := archive, object := object }).1 = (bound h).1 := by
  have hv : (bound h).2.boundValid = true := by
    unfold bound
    split_ifs with hv
    · exact hv
    · rfl
  have hb : (bound h).2.bound = (bound h).1 := by
    unfold bound
    split_ifs <;> rfl
  refine ⟨hv, hb, ?_, fun archive object => ?_⟩
  · have : bound (bound h).2 = ((bound h).2.bound, (bound h).2) := by
      rw [bound.eq_1 (bound h).2, if_pos hv]
    rw [this, hb]
  · rw [bound_fst]
    simp only [hv, if_true, hb]

theorem makeEmpty_isEmpty : Box3d.makeEmpty.isEmpty = true := by
  simp only [Box3d.isEmpty, Box3d.makeEmpty, dblMax]
  norm_num

theorem childHandles_nil (h : AlembicInput) (hn : numChildren h = 0) : childHandles h = [] := by
  have hl : (childHandles h).length = 0 := by rw [childHandles_length, hn]
  exact List.length_eq_zero.mp hl

/-- C11. On a non-root handle whose metadata matches the transform schema, whose stored
child bounds are empty and which has no children, `bound()` (with the cache unset or
agreeing with the backend) returns the stored box itself, an empty box: some component of
its `max` lies below that of its `min`; the result is stored in the members and marked
valid. -/
theorem bound_childless_transform (h : AlembicInput) (hc : BoundCacheOk h)
    (hp : h.object.hasParent = true) (hx : h.object.reader.props.xformMatches = true)
    (he : h.object.reader.props.xformChildBounds.isEmpty = true)
    (hn : numChildren h = 0) :
    (bound h).1.isEmpty = true ∧
    ((bound h).1.max.x < (bound h).1.min.x ∨ (bound h).1.max.y < (bound h).1.min.y ∨
      (bound h).1.max.z < (bound h).1.min.z) ∧
    (bound h).1 = h.object.reader.props.xformChildBounds ∧
    (bound h).2.boundValid = true ∧ (bound h).2.bound = (bound h).1 := by
  have hb : (bound h).1 = h.object.reader.props.xformChildBounds := by
    rw [bound_transform_fallback h hc hp hx he, childHandles_nil h hn]
    rfl
  have hv : (bound h).2.boundValid = true ∧ (bound h).2.bound = (bound h).1 := by
    unfold bound
    split_ifs with hval
    · exact ⟨hval, rfl⟩
    · exact ⟨rfl, rfl⟩
  refine ⟨by rw [hb]; exact he, ?_, hb, hv⟩
  rw [hb]
  simp only [Box3d.isEmpty, Bool.or_eq_true, decide_eq_true_eq] at he
  rcases he with (h1 | h2) | h3
  · exact Or.inl h1
  · exact Or.inr (Or.inl h2)
  · exact Or.inr (Or.inr h3)

/-- Witness of C11: a fresh handle on a Transform object without children and without
stored child bounds. -/
theorem bound_childless_transform_witness :
    numChildren (DataMembers.init invertedArchive ⟨true, childlessT⟩) = 0 ∧
    (bound (DataMembers.init invertedArchive ⟨true, childlessT⟩)).1 = Box3d.makeEmpty ∧
    (bound (DataMembers.init invertedArchive ⟨true, childlessT⟩)).2.boundValid = true :=
  ⟨rfl,
   (bound_childless_transform (DataMembers.init invertedArchive ⟨true, childlessT⟩)
      (boundCacheOk_init _ _) rfl rfl makeEmpty_isEmpty rfl).2.2.1,
   (bound_childless_transform (DataMembers.init invertedArchive ⟨true, childlessT⟩)
      (boundCacheOk_init _ _) rfl rfl makeEmpty_isEmpty rfl).2.2.2.1⟩

/-! ## Transform and children -/

/-- Function `transform` by cases on the metadata alone: the matrix of the transform
sample when the metadata matches the transform schema, the identity otherwise; whether
the object has a parent is not consulted. -/
theorem transform_cases (h : AlembicInput) :
    (h.object.reader.props.xformMatches = true →
      transform h = h.object.reader.props.xformMatrix) ∧
    (h.object.reader.props.xformMatches = false → transform h = {}) := by
  unfold transform
  constructor
  · intro hx
    rw [if_pos hx]
  · intro hx
    rw [if_neg (by rw [hx]; decide)]

/-- C12, evaluated at a root whose metadata matches the transform schema: the top object
of `xformTopArchive` has no parent, `bound()` treats it as the root and returns the
archive bounds, yet `transform()` returns the matrix `translate(5,0,0)` of its transform
sample and not the identity. -/
theorem transform_root_matching :
    (AlembicInput.ofArchive xformTopArchive).object.hasParent = false ∧
    (AlembicInput.ofArchive xformTopArchive).object.reader.props.xformMatches = true ∧
    (bound (AlembicInput.ofArchive xformTopArchive)).1 = xformTopArchive.archiveBounds ∧
    transform (AlembicInput.ofArchive xformTopArchive) = translate5 ∧
    transform (AlembicInput.ofArchive xformTopArchive) ≠ {} := by
  have ht : transform (AlembicInput.ofArchive xformTopArchive) = translate5 := rfl
  refine ⟨rfl, rfl, ?_, ht, ?_⟩
  · rw [AlembicInput.ofArchive, bound_init]
    rfl
  · rw [ht]
    decide

/-- C13. The call `child( index )` fails with the backend's out-of-range error and gives no
handle for every `index ≥ numChildren()`, in particular for `index = numChildren()`; for
`index < numChildren()` it returns a fresh handle (caches unset) on the backend's child
of that index, which has a parent and shares the archive of the handle. -/
theorem child_index (h : AlembicInput) (index : Nat) :
    (index ≥ numChildren h → child h index = .error .backendOutOfRange) ∧
    child h (numChildren h) = .error .backendOutOfRange ∧
    (index < numChildren h →
      ∃ r, h.object.reader.children[index]? = some r ∧
        child h index = .ok (DataMembers.init h.archive ⟨true, r⟩)) ∧
    (∀ c, child h index = .ok c →
      index < numChildren h ∧ c.archive = h.archive ∧ c.object.hasParent = true ∧
      h.object.reader.children[index]? = some c.object.reader ∧
      c.boundValid = false ∧ c.numSamples = -1 ∧ c.timeSampling = none) := by
  have hfail : ∀ i, i ≥ numChildren h → child h i = .error .backendOutOfRange := by
    intro i hi
    have hnone : h.object.reader.children[i]? = none :=
      List.getElem?_eq_none (by simpa [numChildren, IObject.getNumChildren] using hi)
    simp only [child, IObject.getChild, hnone]
  have hok : ∀ r, h.object.reader.children[index]? = some r →
      child h index = .ok (DataMembers.init h.archive ⟨true, r⟩) := by
    intro r hr
    simp only [child, IObject.getChild, hr]
  refine ⟨hfail index, hfail _ (le_refl _), fun hlt => ?_, fun c hc => ?_⟩
  · have hlt2 : index < h.object.reader.children.length := hlt
    exact ⟨h.object.reader.children[index], List.getElem?_eq_getElem hlt2,
      hok _ (List.getElem?_eq_getElem hlt2)⟩
  · have hlt : index < numChildren h := by
      by_contra hge
      rw [hfail index (not_lt.mp hge)] at hc
      cases hc
    have hlt2 : index < h.object.reader.children.length := hlt
    have hr := List.getElem?_eq_getElem hlt2
    rw [hok _ hr] at hc
    cases hc
    exact ⟨hlt, rfl, rfl, hr, rfl, rfl, rfl⟩

/-- Witness of C13: the root of the scenario archive has the one child "A". -/
theorem child_index_witness :
    child scenarioRoot 1 = .error .backendOutOfRange ∧
    ∃ r, scenarioRoot.object.reader.children[0]? = some r ∧
      child scenarioRoot 0 = .ok (DataMembers.init scenarioRoot.archive ⟨true, r⟩) :=
  ⟨(child_index scenarioRoot 1).1 (by decide), (child_index scenarioRoot 0).2.2.1 (by decide)⟩

/-- C14. The call `child( name )` fails, with `InvalidArgumentException( name )`, exactly
when no child of the object has that name; otherwise it returns a fresh handle (bound
not valid, sample count `-1`, no table) on a child of that name, the first in file order,
which has a parent and shares the archive of the handle. -/
theorem child_name (h : AlembicInput) (name : String) :
    ((∃ e, childByName h name = .error e) ↔
      ∀ r, r ∈ h.object.reader.children → r.props.name ≠ name) ∧
    ((∀ r, r ∈ h.object.reader.children → r.props.name ≠ name) →
      childByName h name = .error (.invalidArgument name)) ∧
    ((∃ r, r ∈ h.object.reader.children ∧ r.props.name = name) →
      ∃ c, childByName h name = .ok c ∧ c.object.reader ∈ h.object.reader.children ∧
        c.object.reader.props.name = name ∧ c.object.hasParent = true ∧
        c.archive = h.archive ∧ c.boundValid = false ∧ c.numSamples = -1 ∧
        c.timeSampling = none ∧
        some c.object.reader
          = h.object.reader.children.find? (fun r => r.props.name == name)) := by
  have hnone : (∀ r, r ∈ h.object.reader.children → r.props.name ≠ name) →
      childByName h name = .error (.invalidArgument name) := by
    intro hall
    have hf : h.object.reader.children.find? (fun r => r.props.name == name) = none := by
      rw [List.find?_eq_none]
      intro r hr
      simpa using hall r hr
    simp only [childByName, IObject.getChildByName, hf, Option.map_none']
  have hsome : (∃ r, r ∈ h.object.reader.children ∧ r.props.name = name) →
      ∃ c, childByName h name = .ok c ∧ c.object.reader ∈ h.object.reader.children ∧
        c.object.reader.props.name = name ∧ c.object.hasParent = true ∧
        c.archive = h.archive ∧ c.boundValid = false ∧ c.numSamples = -1 ∧
        c.timeSampling = none ∧
        some c.object.reader
          = h.object.reader.children.find? (fun r => r.props.name == name) := by
    rintro ⟨r, hr, hname⟩
    cases hf : h.object.reader.children.find? (fun r => r.props.name == name) with
    | none =>
      rw [List.find?_eq_none] at hf
      exact absurd (by simpa using hname) (hf r hr)
    | some r0 =>
      refine ⟨DataMembers.init h.archive ⟨true, r0⟩, ?_, List.mem_of_find?_eq_some hf, ?_,
        rfl, rfl, rfl, rfl, rfl, rfl⟩
      · simp only [childByName, IObject.getChildByName, hf, Option.map_some']
      · simpa using List.find?_some hf
  refine ⟨⟨?_, fun hall => ⟨_, hnone hall⟩⟩, hnone, hsome⟩
  rintro ⟨e, he⟩ r hr hname
  obtain ⟨c, hc, -⟩ := hsome ⟨r, hr, hname⟩
  rw [hc] at he
  cases he

/-- Witness of C14: under the root of the scenario archive there is a child "A" and no
child "missing-name". -/
theorem child_name_witness :
    childByName scenarioRoot "missing-name" = .error (.invalidArgument "missing-name") ∧
    ∃ c, childByName scenarioRoot "A" = .ok c ∧ c.archive = scenarioRoot.archive ∧
      c.boundValid = false ∧ c.numSamples = -1 ∧ c.timeSampling = none := by
  refine ⟨(child_name scenarioRoot "missing-name").2.1 ?_, ?_⟩
  · intro r hr
    have hA : r = scenarioA := by simpa [scenarioRoot, AlembicInput.ofArchive, DataMembers.init,
      IArchive.getTop, scenarioArchive, ObjectReader.children] using hr
    rw [hA]
    decide
  · obtain ⟨c, hc, -, -, -, ha, hv, hn, ht, -⟩ :=
      (child_name scenarioRoot "A").2.2 ⟨scenarioA, by
        simp [scenarioRoot, AlembicInput.ofArchive, DataMembers.init, IArchive.getTop,
          scenarioArchive, ObjectReader.children], rfl⟩
    exact ⟨c, hc, ha, hv, hn, ht⟩

/-! ## Cache monotonicity -/

theorem cacheStep_refl (h : AlembicInput) : CacheStep h h :=
  ⟨rfl, rfl, fun _ => rfl, fun _ hts => hts, fun hv => ⟨hv, rfl⟩, id, id, id⟩

theorem cacheStep_trans {h k l : AlembicInput} (hk : CacheStep h k) (kl : CacheStep k l) :
    CacheStep h l := by
  obtain ⟨a1, o1, n1, t1, b1, c1, d1, e1⟩ := hk
  obtain ⟨a2, o2, n2, t2, b2, c2, d2, e2⟩ := kl
  refine ⟨a2.trans a1, o2.trans o1, fun hn => ?_, fun ts hts => t2 ts (t1 ts hts),
    fun hv => ⟨(b2 (b1 hv).1).1, ((b2 (b1 hv).1).2).trans (b1 hv).2⟩,
    fun hc => c2 (c1 hc), fun hc => d2 (d1 hc), fun hc => e2 (e1 hc)⟩
  have hkn : k.numSamples = h.numSamples := n1 hn
  rw [← hkn]
  exact n2 (by rw [hkn]; exact hn)

theorem countCacheOk_init (archive : IArchive) (object : IObject) :
    CountCacheOk (DataMembers.init archive object) := by
  intro hn
  exact absurd rfl hn

theorem cacheStep_numSamples (h : AlembicInput) : CacheStep h (numSamples h).2 := by
  obtain ⟨ht, ho, ha, hv, hb⟩ := numSamples_snd_fields h
  have hnum : h.numSamples ≠ -1 → (numSamples h).2.numSamples = h.numSamples := by
    intro hn
    rw [numSamples_eq, if_pos hn]
  refine ⟨ha, ho, hnum, fun ts hts => by rw [ht]; exact hts,
    fun hval => ⟨by rw [hv]; exact hval, hb⟩, fun hc => ?_, timeCacheOk_numSamples h,
    boundCacheOk_numSamples h⟩
  by_cases hn : h.numSamples ≠ -1
  · have e : numSamples h = (toSizeT h.numSamples, h) := by rw [numSamples_eq, if_pos hn]
    rw [e]
    exact hc
  · have e : numSamples h = (toSizeT (toInt h.object.schemaNumSamples),
        { h with numSamples := toInt h.object.schemaNumSamples }) := by
      rw [numSamples_eq, if_neg hn]
    rw [e]
    intro _
    rfl

theorem cacheStep_ensureTimeSampling (h : AlembicInput) :
    CacheStep h (ensureTimeSampling h) := by
  obtain ⟨ha, ho, hv, hb⟩ := ensureTimeSampling_fields h
  have hn := (ensureTimeSampling_numSamples h).1
  refine ⟨ha, ho, fun _ => hn, fun ts hts => ?_, fun hval => ⟨by rw [hv]; exact hval, hb⟩,
    fun hc => ?_, timeCacheOk_ensureTimeSampling h, boundCacheOk_ensureTimeSampling h⟩
  · rw [ensureTimeSampling_isSome, tableOf_eq, hts]
    rfl
  · unfold CountCacheOk at hc ⊢
    rw [hn, ho]
    exact hc

theorem cacheStep_bound (h : AlembicInput) : CacheStep h (bound h).2 := by
  unfold bound
  split_ifs with hval
  · exact cacheStep_refl h
  · exact ⟨rfl, rfl, fun _ => rfl, fun _ hts => hts, fun hv => absurd hv hval,
      fun hc => hc, fun hc => hc, fun _ _ => rfl⟩

theorem cacheStep_sampleTime (h : AlembicInput) (i : Nat) : CacheStep h (sampleTime h i).2 := by
  simp only [sampleTime]
  split_ifs
  · exact cacheStep_numSamples h
  · exact cacheStep_trans (cacheStep_numSamples h) (cacheStep_ensureTimeSampling _)

theorem cacheStep_sampleInterval (h : AlembicInput) (t : ℚ) :
    CacheStep h (sampleInterval h t).2 := by
  have s1 := cacheStep_trans (cacheStep_ensureTimeSampling h) (cacheStep_numSamples _)
  have s2 := cacheStep_trans s1 (cacheStep_numSamples _)
  simp only [sampleInterval]
  split_ifs
  · exact s1
  · exact s2
  · exact s2

theorem cacheStep_run (op : Operation) (h : AlembicInput) : CacheStep h (op.run h) := by
  cases op with
  | numSamples => exact cacheStep_numSamples h
  | sampleTime i => exact cacheStep_sampleTime h i
  | sampleInterval t => exact cacheStep_sampleInterval h t
  | bound => exact cacheStep_bound h
  | transform => exact cacheStep_refl h
  | childAt i => exact cacheStep_refl h
  | childNamed n => exact cacheStep_refl h
  | childNames => exact cacheStep_refl h

theorem cacheStep_runAll (ops : List Operation) :
    ∀ h : AlembicInput, CacheStep h (runAll ops h) := by
  induction ops with
  | nil => exact fun h => cacheStep_refl h
  | cons op ops ih =>
    intro h
    exact cacheStep_trans (cacheStep_run op h) (ih (op.run h))

theorem toInt_of_lt (n : Nat) (hn : n < 2 ^ 31) : toInt n = (n : Int) := by
  have hmod : n % 2 ^ 32 = n := Nat.mod_eq_of_lt (by omega)
  unfold toInt
  rw [hmod, if_pos hn]

theorem toSizeT_natCast (n : Nat) (hn : n < 2 ^ 31) : toSizeT (n : Int) = n := by
  unfold toSizeT
  omega

/-- C15, evaluated at the root of an archive whose `.childBnds` property has `2 ^ 31`
samples: `numSamples()` stores the backend's `size_t` count in the `int` member, so after
the call the cached sample count is set (it is not `-1`) but is `-2 ^ 31`, not the
backend's count `2 ^ 31`, and the next `numSamples()` returns `2 ^ 64 - 2 ^ 31`. -/
theorem cached_count_not_backend_count :
    (Operation.numSamples.run manySamplesInput).numSamples ≠ -1 ∧
    (Operation.numSamples.run manySamplesInput).numSamples = -2 ^ 31 ∧
    manySamplesInput.object.schemaNumSamples = 2 ^ 31 ∧
    (Operation.numSamples.run manySamplesInput).numSamples
      ≠ ((manySamplesInput.object.schemaNumSamples : Nat) : Int) ∧
    (numSamples (Operation.numSamples.run manySamplesInput)).1 = 2 ^ 64 - 2 ^ 31 := by
  decide

/-- Monotonicity of the caches. Every operation on a handle (`numSamples`, `sampleTime`,
`sampleInterval`, `bound`, `transform`, `child`, `childNames`) keeps the archive and the
object, keeps a set sample count (one that is not `-1`), keeps a set table, and keeps a
valid bound valid and unchanged. On the members reached from a fresh handle by any
sequence of operations, a set sample count is the value the `int` member takes from the
backend's count of the node's schema, which is that count, and is what `numSamples()`
returns, whenever the count is below `2 ^ 31`; a set table is the backend's table of the
schema; a valid bound is the box computed from the backend. -/
theorem cache_monotone (op : Operation) (h : AlembicInput) :
    (op.run h).archive = h.archive ∧ (op.run h).object = h.object ∧
    (h.numSamples ≠ -1 → (op.run h).numSamples = h.numSamples) ∧
    (∀ ts, h.timeSampling = some ts → (op.run h).timeSampling = some ts) ∧
    (h.boundValid = true → (op.run h).boundValid = true ∧ (op.run h).bound = h.bound) ∧
    (∀ (ops : List Operation) (archive : IArchive) (object : IObject),
      ((runAll ops (DataMembers.init archive object)).numSamples ≠ -1 →
        (runAll ops (DataMembers.init archive object)).numSamples
          = toInt object.schemaNumSamples ∧
        (object.schemaNumSamples < 2 ^ 31 →
          (runAll ops (DataMembers.init archive object)).numSamples
            = (object.schemaNumSamples : Int) ∧
          (numSamples (runAll ops (DataMembers.init archive object))).1
            = object.schemaNumSamples)) ∧
      (∀ ts, (runAll ops (DataMembers.init archive object)).timeSampling = some ts →
        ts = object.schemaTimeSampling) ∧
      ((runAll ops (DataMembers.init archive object)).boundValid = true →
        (runAll ops (DataMembers.init archive object)).bound
          = computeBound archive object.hasParent object.reader)) := by
  obtain ⟨a, o, n, t, b, -, -, -⟩ := cacheStep_run op h
  refine ⟨a, o, n, t, b, fun ops archive object => ?_⟩
  obtain ⟨a2, o2, -, -, -, c2, d2, e2⟩ := cacheStep_runAll ops (DataMembers.init archive object)
  have ha : (runAll ops (DataMembers.init archive object)).archive = archive := a2
  have ho : (runAll ops (DataMembers.init archive object)).object = object := o2
  have hc := c2 (countCacheOk_init archive object)
  have hd := d2 (timeCacheOk_init archive object)
  have he := e2 (boundCacheOk_init archive object)
  unfold CountCacheOk at hc
  unfold TimeCacheOk at hd
  unfold BoundCacheOk at he
  rw [ho] at hc hd
  rw [ha, ho] at he
  refine ⟨fun hset => ⟨hc hset, fun hlt => ?_⟩, hd, he⟩
  have hval : (runAll ops (DataMembers.init archive object)).numSamples
      = (object.schemaNumSamples : Int) := by
    rw [hc hset, toInt_of_lt _ hlt]
  refine ⟨hval, ?_⟩
  rw [numSamples_eq, if_pos hset]
  show toSizeT _ = _
  rw [hval]
  exact toSizeT_natCast _ hlt

/-! ## Termination of the bound recursion -/

theorem depth_mk (p : ObjectProps) (cs : List ObjectReader) :
    (ObjectReader.mk p cs).depth = depthOfChildren cs + 1 :=
  rfl

theorem depthOfChildren_cons (c : ObjectReader) (cs : List ObjectReader) :
    depthOfChildren (c :: cs) = max c.depth (depthOfChildren cs) :=
  rfl

theorem computeBoundDepth_zero (archive : IArchive) (hasParent : Bool) (r : ObjectReader) :
    computeBoundDepth archive 0 hasParent r = none := by
  cases r
  rfl

theorem computeBoundDepth_succ (archive : IArchive) (levels : Nat) (hasParent : Bool)
    (p : ObjectProps) (cs : List ObjectReader) :
    computeBoundDepth archive (levels + 1) hasParent (.mk p cs) =
      if !hasParent then some archive.archiveBounds
      else if p.xformMatches then
        if p.xformChildBounds.isEmpty then
          extendByChildrenDepth archive levels p.xformChildBounds cs
        else some p.xformChildBounds
      else some p.geomSelfBounds :=
  rfl

theorem extendByChildrenDepth_nil (archive : IArchive) (levels : Nat) (acc : Box3d) :
    extendByChildrenDepth archive levels acc [] = some acc :=
  rfl

theorem extendByChildrenDepth_cons (archive : IArchive) (levels : Nat) (acc : Box3d)
    (c : ObjectReader) (cs : List ObjectReader) :
    extendByChildrenDepth archive levels acc (c :: cs) =
      match computeBoundDepth archive levels true c with
      | none => none
      | some b =>
        extendByChildrenDepth archive levels
          (acc.extendBy (transformBox b (transform (DataMembers.init archive ⟨true, c⟩)))) cs :=
  rfl

mutual
/-- With as many levels as the tree is deep, the limited computation returns the box of
`computeBound`. -/
theorem computeBoundDepth_of_depth (archive : IArchive) :
    ∀ (r : ObjectReader) (levels : Nat) (hasParent : Bool), r.depth ≤ levels →
      computeBoundDepth archive levels hasParent r = some (computeBound archive hasParent r)
  | .mk p cs, 0, _, hd => by
    rw [depth_mk] at hd
    omega
  | .mk p cs, levels + 1, hasParent, hd => by
    rw [depth_mk] at hd
    have hcs : depthOfChildren cs ≤ levels := by omega
    rw [computeBoundDepth_succ, computeBound_mk]
    split_ifs
    · rfl
    · exact extendByChildrenDepth_of_depth archive cs levels _ hcs
    · rfl
    · rfl
/-- With as many levels as the deepest child is deep, the limited loop over the children
returns the box of `extendByChildren`. -/
theorem extendByChildrenDepth_of_depth (archive : IArchive) :
    ∀ (cs : List ObjectReader) (levels : Nat) (acc : Box3d), depthOfChildren cs ≤ levels →
      extendByChildrenDepth archive levels acc cs = some (extendByChildren archive acc cs)
  | [], _, _, _ => rfl
  | c :: cs, levels, acc, hd => by
    rw [depthOfChildren_cons] at hd
    have h1 : c.depth ≤ levels := le_trans (le_max_left _ _) hd
    have h2 : depthOfChildren cs ≤ levels := le_trans (le_max_right _ _) hd
    rw [extendByChildrenDepth_cons, computeBoundDepth_of_depth archive c levels true h1,
      extendByChildren_cons]
    exact extendByChildrenDepth_of_depth archive cs levels _ h2
end

/-- C16. On every handle `bound()` returns: limited to as many nested `bound()` calls as
the object tree below the handle is deep, the computation, which only descends from an
object into the children of that object, yields the result of `bound` (box and members);
the same holds for the computation on the tree with any archive and parent flag. -/
theorem bound_terminates (h : AlembicInput) (levels : Nat)
    (hd : h.object.reader.depth ≤ levels) :
    boundDepth levels h = some (bound h) ∧
    ∀ (archive : IArchive) (hasParent : Bool),
      computeBoundDepth archive levels hasParent h.object.reader
        = some (computeBound archive hasParent h.object.reader) := by
  refine ⟨?_, fun archive hasParent =>
    computeBoundDepth_of_depth archive h.object.reader levels hasParent hd⟩
  unfold boundDepth bound
  split_ifs
  · rfl
  · rw [computeBoundDepth_of_depth h.archive h.object.reader levels h.object.hasParent hd]

/-- Witness of C16: the node "A" of the scenario, a tree of depth 2, with two levels. -/
theorem bound_terminates_witness :
    scenarioInputA.object.reader.depth ≤ 2 ∧
    boundDepth 2 scenarioInputA = some (bound scenarioInputA) :=
  ⟨by decide, (bound_terminates scenarioInputA 2 (by decide)).1⟩

/-! ## Indices and weight of the resolution -/

/-- The members after `sampleInterval` hold the same table and the same sample count. -/
theorem sampleInterval_snd (h : AlembicInput) (t : ℚ) :
    tableOf (sampleInterval h t).2 = tableOf h ∧
      (numSamples (sampleInterval h t).2).1 = (numSamples h).1 := by
  have e0 : tableOf (ensureTimeSampling h) = tableOf h := by
    rw [tableOf_eq (ensureTimeSampling h), ensureTimeSampling_isSome]
    rfl
  have t1 : tableOf (numSamples (ensureTimeSampling h)).2 = tableOf h :=
    (tableOf_numSamples _).trans e0
  have t2 : tableOf (numSamples (numSamples (ensureTimeSampling h)).2).2 = tableOf h :=
    (tableOf_numSamples _).trans t1
  have n1 : (numSamples (numSamples (ensureTimeSampling h)).2).1 = (numSamples h).1 :=
    (numSamples_twice _).trans (numSamples_fst_ensure h)
  have n2 : (numSamples (numSamples (numSamples (ensureTimeSampling h)).2).2).1
      = (numSamples h).1 := (numSamples_twice _).trans n1
  simp only [sampleInterval]
  split_ifs
  · exact ⟨t1, n1⟩
  · exact ⟨t2, n2⟩
  · exact ⟨t2, n2⟩

/-- C17. On a handle with `numSamples() ≥ 1`, for every query time both indices returned
by `sampleInterval` are below `numSamples()`, and `sampleTime` at either index, called
on the handle before or after `sampleInterval`, returns a time and does not throw. -/
theorem sampleInterval_indices_in_range (h : AlembicInput) (time : ℚ)
    (hn : 1 ≤ (numSamples h).1) :
    (sampleInterval h time).1.floorIndex < (numSamples h).1 ∧
    (sampleInterval h time).1.ceilIndex < (numSamples h).1 ∧
    (sampleTime h (sampleInterval h time).1.floorIndex).1
      = .ok ((tableOf h).getSampleTime (sampleInterval h time).1.floorIndex) ∧
    (sampleTime h (sampleInterval h time).1.ceilIndex).1
      = .ok ((tableOf h).getSampleTime (sampleInterval h time).1.ceilIndex) ∧
    (sampleTime (sampleInterval h time).2 (sampleInterval h time).1.floorIndex).1
      = .ok ((tableOf h).getSampleTime (sampleInterval h time).1.floorIndex) ∧
    (sampleTime (sampleInterval h time).2 (sampleInterval h time).1.ceilIndex).1
      = .ok ((tableOf h).getSampleTime (sampleInterval h time).1.ceilIndex) := by
  have hidx := sampleIntervalOn_indices (tableOf h) (numSamples h).1 time hn
  rw [← sampleInterval_fst] at hidx
  obtain ⟨hf, hc⟩ := hidx
  obtain ⟨ht, hcount⟩ := sampleInterval_snd h time
  refine ⟨hf, hc, ?_, ?_, ?_, ?_⟩
  · rw [sampleTime_fst, if_neg (by omega)]
  · rw [sampleTime_fst, if_neg (by omega)]
  · rw [sampleTime_fst, hcount, ht, if_neg (by omega)]
  · rw [sampleTime_fst, hcount, ht, if_neg (by omega)]

/-- Witness of C17: the three-sample table queried after its last sample. -/
theorem sampleInterval_indices_in_range_witness :
    1 ≤ (numSamples threeSampleInput).1 ∧
    (sampleInterval threeSampleInput 7).1.floorIndex < (numSamples threeSampleInput).1 ∧
    (sampleInterval threeSampleInput 7).1.ceilIndex < (numSamples threeSampleInput).1 :=
  ⟨by decide, (sampleInterval_indices_in_range threeSampleInput 7 (by decide)).1,
   (sampleInterval_indices_in_range threeSampleInput 7 (by decide)).2.1⟩

end IECoreAlembic
